import Mathlib

set_option linter.unusedVariables false

/-!
Shallow embedding of the markdown rendering core of
`src/rev/0.7.3dev/dev/markdown_widget.py` (class `MarkdownText`).

Strings are modelled as `List Char`.  The Tk text widget is modelled as the
sequence of characters inserted (in document order, `insert` only ever
happens at the current end position) together with the list of `tag_add`
calls, each recorded as a tag name and a pair of character offsets from the
start of the widget (Tk index `"1.0+{n}c"` arithmetic).  Python `int` is
modelled as `Int` where values can go negative (recorded span positions),
and as `Nat` where they cannot (match positions, offsets).
Python `str.strip` / regex `\s` are modelled on the ASCII whitespace range.
-/

/-- The backtick character (U+0060). -/
def backtick : Char := Char.ofNat 96

/-- ASCII whitespace: models Python `str.strip()` and regex `\s`
    on the ASCII range. -/
def isPySpace (c : Char) : Bool :=
  c = ' ' || c = '\t' || c = '\n' || c = '\r' || c = '\x0b' || c = '\x0c'

/-- Python `str.lstrip()`. -/
def trimLeft (l : List Char) : List Char := l.dropWhile isPySpace

/-- Python `str.rstrip()`. -/
def trimRight (l : List Char) : List Char := (l.reverse.dropWhile isPySpace).reverse

/-- Python `str.strip()`. -/
def pyStrip (l : List Char) : List Char := trimRight (trimLeft l)

/-- Python `str.strip(c)` for a single character `c` (strips `c` from both
    ends, as in `line.strip('#')`). -/
def stripChar (c : Char) (l : List Char) : List Char :=
  ((l.dropWhile (· = c)).reverse.dropWhile (· = c)).reverse

/-- Python `text.split('\n')`. -/
def pySplitNL : List Char → List (List Char)
  | [] => [[]]
  | c :: rest =>
    match pySplitNL rest with
    | [] => [[]]
    | h :: t => if c = '\n' then [] :: h :: t else (c :: h) :: t

/-- Python `'\n'.join(...)`. -/
def joinNL (ls : List (List Char)) : List Char := List.intercalate ['\n'] ls

/-- `p.isPrefixOf l`, i.e. Python `l.startswith(p)`. -/
def startsWithL (p l : List Char) : Bool := p.isPrefixOf l

theorem length_dropWhile_le' (p : α → Bool) (l : List α) :
    (l.dropWhile p).length ≤ l.length :=
  (List.dropWhile_sublist p).length_le

/-!  ## Inline formatter (`_process_inline_formatting`)  -/

/-- One recorded inline format (an entry of the `formats` list built by
    `_process_inline_formatting`).  `start`/`stop` are Python ints
    (`'start'`/`'end'` keys) and can be negative, hence `Int`. -/
structure Fmt where
  start : Int
  stop : Int
  type : String
deriving DecidableEq, Repr

/-- The mutable state of `_process_inline_formatting`:
    `processed_text`, `formats`, `offset`. -/
structure PassSt where
  text : List Char
  formats : List Fmt
  offset : Nat
deriving DecidableEq, Repr

/-- Python `s[:a] + c + s[b:]` for `0 ≤ a, b` (all splices in the source use
    regex match positions, which are nonnegative). -/
def splice (l : List Char) (a b : Nat) (c : List Char) : List Char :=
  l.take a ++ c ++ l.drop b

/-- One attempt of `` r'`([^`]+)`' `` at the start of `l`: on success the
    match length and the captured content.  The greedy `[^` + `]+` run is the
    maximal backtick-free run; the match succeeds iff it is nonempty and a
    closing backtick follows. -/
def tryCode (l : List Char) : Option (Nat × List Char) :=
  match l with
  | c :: t =>
    if c = backtick then
      let cont := t.takeWhile (· ≠ backtick)
      if cont.length ≠ 0 ∧ t.drop cont.length ≠ [] then some (cont.length + 2, cont)
      else none
    else none
  | [] => none

/-- One attempt of `r'~~([^~]+?)~~'` at the start of `l`.  The lazy
    tilde-free content run necessarily extends to the first `~`, which must
    be followed by a second `~`. -/
def tryStrike (l : List Char) : Option (Nat × List Char) :=
  if startsWithL ['~', '~'] l then
    let t := l.drop 2
    let cont := t.takeWhile (· ≠ '~')
    if cont.length ≠ 0 ∧ startsWithL ['~', '~'] (t.drop cont.length) then
      some (cont.length + 4, cont)
    else none
  else none

/-- One attempt of `r'\*\*\*([^*]+?)\*\*\*'` at the start of `l`. -/
def tryBoldItalic (l : List Char) : Option (Nat × List Char) :=
  if startsWithL ['*', '*', '*'] l then
    let t := l.drop 3
    let cont := t.takeWhile (· ≠ '*')
    if cont.length ≠ 0 ∧ startsWithL ['*', '*', '*'] (t.drop cont.length) then
      some (cont.length + 6, cont)
    else none
  else none

/-- One attempt of `r'\*\*([^*]+?)\*\*'` at the start of `l`. -/
def tryBold (l : List Char) : Option (Nat × List Char) :=
  if startsWithL ['*', '*'] l then
    let t := l.drop 2
    let cont := t.takeWhile (· ≠ '*')
    if cont.length ≠ 0 ∧ startsWithL ['*', '*'] (t.drop cont.length) then
      some (cont.length + 4, cont)
    else none
  else none

/-- One attempt of `r'\*([^*]+?)\*'` at the start of `l`. -/
def tryItalic (l : List Char) : Option (Nat × List Char) :=
  if startsWithL ['*'] l then
    let t := l.drop 1
    let cont := t.takeWhile (· ≠ '*')
    if cont.length ≠ 0 ∧ startsWithL ['*'] (t.drop cont.length) then
      some (cont.length + 2, cont)
    else none
  else none

/-- One attempt of `r'\[([^\]]+?)\]\([^\)]+?\)'` at the start of `l`;
    the captured content is the link label (`match.group(1)`). -/
def tryLink (l : List Char) : Option (Nat × List Char) :=
  if startsWithL ['['] l then
    let t := l.drop 1
    let lab := t.takeWhile (· ≠ ']')
    if lab.length ≠ 0 ∧ startsWithL [']', '('] (t.drop lab.length) then
      let v := t.drop (lab.length + 2)
      let url := v.takeWhile (· ≠ ')')
      if url.length ≠ 0 ∧ startsWithL [')'] (v.drop url.length) then
        some (lab.length + url.length + 4, lab)
      else none
    else none
  else none

/-- `re.finditer` for the six patterns above: scan left to right, at each
    position attempt a match; on success emit `(span start, span end,
    captured content)` and continue after the match, else advance one
    character.  Every pattern above only matches with length ≥ 1, so
    `rest.drop (len - 1)` is the text following the match.  The scan is
    written with an explicit fuel argument (structural recursion, so that
    the kernel can evaluate it); every step consumes at least one character,
    so fuel `l.length` (used by `finditer` below) never runs out. -/
def finditerF (t : List Char → Option (Nat × List Char)) :
    Nat → List Char → Nat → List (Nat × Nat × List Char)
  | 0, _, _ => []
  | _ + 1, [], _ => []
  | fuel + 1, c :: rest, pos =>
    match t (c :: rest) with
    | some (len, cont) =>
      (pos, pos + len, cont) :: finditerF t fuel (rest.drop (len - 1)) (pos + len)
    | none => finditerF t fuel rest (pos + 1)

/-- `re.finditer`, with the fuel instantiated to the text length. -/
def finditer (t : List Char → Option (Nat × List Char)) (l : List Char) (pos : Nat) :
    List (Nat × Nat × List Char) :=
  finditerF t l.length l pos

/-- `_position_in_ranges`: add `offset` to the candidate span and test
    overlap against each recorded range. -/
def position_in_ranges (s e : Nat) (ranges : List (Nat × Nat)) (offset : Nat) : Bool :=
  ranges.any (fun r => decide (s + offset < r.2) && decide (e + offset > r.1))

/-- One formatting pass of `_process_inline_formatting`: iterate over the
    pass's matches in reverse (right-to-left) order; when `check` is set
    (passes 2–6) skip matches overlapping the inline-code ranges per
    `_position_in_ranges`; otherwise splice the delimited text out, append a
    format record (pass 1 records `start - offset`, encoded by `adjust`;
    later passes record `start` as-is), and add the pass's removed character
    count (`delta`) to `offset`. -/
def passStep (ty : String) (adjust check : Bool) (delta : Nat → Nat → List Char → Nat)
    (codeRanges : List (Nat × Nat)) (st : PassSt) (m : Nat × Nat × List Char) : PassSt :=
  if check && position_in_ranges m.1 m.2.1 codeRanges st.offset then st
  else
    let a : Int := if adjust then (m.1 : Int) - (st.offset : Int) else (m.1 : Int)
    { text := splice st.text m.1 m.2.1 m.2.2
      formats := st.formats ++ [⟨a, a + m.2.2.length, ty⟩]
      offset := st.offset + delta m.1 m.2.1 m.2.2 }

def runPass (ty : String) (adjust check : Bool) (delta : Nat → Nat → List Char → Nat)
    (codeRanges : List (Nat × Nat)) (ms : List (Nat × Nat × List Char))
    (st : PassSt) : PassSt :=
  ms.reverse.foldl (passStep ty adjust check delta codeRanges) st

/-- `_process_inline_formatting`: six ordered passes (inline code,
    strikethrough, bold-italic, bold, italic, link).  The inline-code pass
    records its ranges (on the original text) for the later passes' overlap
    checks; each later pass runs `finditer` on the text as mutated so far.
    The per-pass `delta` values 2/4/6/4/2 and
    `len(match.group(0)) - len(content)` are the source's literal
    `offset +=` increments. -/
def process_inline_formatting (text : List Char) : PassSt :=
  let codeMs := finditer tryCode text 0
  let codeRanges := codeMs.map (fun m => (m.1, m.2.1))
  let st1 := runPass "inline_code" true false (fun _ _ _ => 2) codeRanges codeMs ⟨text, [], 0⟩
  let st2 := runPass "strikethrough" false true (fun _ _ _ => 4) codeRanges
    (finditer tryStrike st1.text 0) st1
  let st3 := runPass "bold_italic" false true (fun _ _ _ => 6) codeRanges
    (finditer tryBoldItalic st2.text 0) st2
  let st4 := runPass "bold" false true (fun _ _ _ => 4) codeRanges
    (finditer tryBold st3.text 0) st3
  let st5 := runPass "italic" false true (fun _ _ _ => 2) codeRanges
    (finditer tryItalic st4.text 0) st4
  runPass "link" false true (fun s e cont => (e - s) - cont.length) codeRanges
    (finditer tryLink st5.text 0) st5

/-!  ## Block segmenter and renderer (`_render_markdown_text`)  -/

/-- One `tag_add` call: tag name and character-offset range. -/
structure TagE where
  tag : String
  start : Int
  stop : Int
deriving DecidableEq, Repr

/-- The text widget: inserted characters plus recorded `tag_add` calls. -/
structure Widget where
  out : List Char
  tags : List TagE
deriving DecidableEq, Repr

def emptyW : Widget := ⟨[], []⟩

/-- `self.insert(current_pos, s)` — all inserts happen at the current end. -/
def wIns (w : Widget) (s : List Char) : Widget := { w with out := w.out ++ s }

/-- `self.tag_add(t, a, b)` with character-offset indices. -/
def wTag (w : Widget) (t : String) (a b : Int) : Widget :=
  { w with tags := w.tags ++ [⟨t, a, b⟩] }

/-- Insert `s` at the current position and tag all of it with `t`
    (the `insert`/`tag_add(line_start, end_pos)` pattern of every block
    branch). -/
def insTagged (w : Widget) (s : List Char) (t : String) : Widget :=
  wTag (wIns w s) t w.out.length (w.out.length + s.length)

/-- `line.strip().startswith('```')`. -/
def fenceCond (l : List Char) : Bool := startsWithL "```".data (pyStrip l)

/-- The `hash_count` loop: leading `'#'` run of the *raw* line. -/
def hashCount (l : List Char) : Nat := (l.takeWhile (· = '#')).length

/-- `line.strip('#').strip()`. -/
def titleText (l : List Char) : List Char := pyStrip (stripChar '#' l)

/-- The heading branch fires iff `line.strip().startswith('#')` and
    `hash_count <= 4` and `title_text` is nonempty (the source nests these
    as three `if`s whose failures all fall through to the same subsequent
    checks, so flattening to a conjunction is behaviour-preserving). -/
def headCond (l : List Char) : Bool :=
  startsWithL "#".data (pyStrip l) && decide (hashCount l ≤ 4) && !(titleText l).isEmpty

/-- `line.strip().startswith('>')`. -/
def quoteCond (l : List Char) : Bool := startsWithL ">".data (pyStrip l)

/-- `lines[i].strip().lstrip('>').strip()`. -/
def stripQuote (l : List Char) : List Char := pyStrip ((pyStrip l).dropWhile (· = '>'))

/-- `re.match(r'^\s*[-*+]\s+', line)`. -/
def isUnordered (l : List Char) : Bool :=
  match l.dropWhile isPySpace with
  | m :: s :: _ => (m = '-' || m = '*' || m = '+') && isPySpace s
  | _ => false

/-- `re.match(r'^\s*\d+\.\s+', line)`. -/
def isOrdered (l : List Char) : Bool :=
  let t := l.dropWhile isPySpace
  let ds := t.takeWhile Char.isDigit
  !ds.isEmpty &&
    (match t.drop ds.length with
     | '.' :: s :: _ => isPySpace s
     | _ => false)

/-- The two `re.sub` calls of the list branch.  The first rewrites
    `^(\s*)[-*+]\s+` to `\1• ` (bullet normalization, the greedy `\s+` after
    the marker collapses to the single space after `•`).  The second
    rewrites `^(\s*)\d+\.\s+` to `\1\g<0>`, i.e. it *prepends an extra copy
    of the leading whitespace* in front of the whole match and keeps the
    rest of the line as-is. -/
def cleanLine (l : List Char) : List Char :=
  let l1 :=
    if isUnordered l then
      let ws := l.takeWhile isPySpace
      match l.dropWhile isPySpace with
      | _ :: r => ws ++ '•' :: ' ' :: r.dropWhile isPySpace
      | [] => l
    else l
  if isOrdered l1 then
    let ws := l1.takeWhile isPySpace
    let t := l1.dropWhile isPySpace
    let ds := t.takeWhile Char.isDigit
    ws ++ ws ++ ds ++ '.' :: t.drop (ds.length + 1)
  else l1

/-- `re.match(r'^\s*[-*_]{3,}\s*$', line)`: after leading whitespace, a
    maximal run of `-`/`*`/`_` (mixing allowed) of length ≥ 3, then only
    whitespace to the end. -/
def isHR (l : List Char) : Bool :=
  let t := l.dropWhile isPySpace
  let r := t.takeWhile (fun c => c = '-' || c = '*' || c = '_')
  decide (3 ≤ r.length) && (t.drop r.length).all isPySpace

/-- The code-fence branch body: `'\n'.join(code_lines) + '\n'` inserted and
    tagged `code_block`, but only when `code_lines` is nonempty. -/
def fenceStep (body : List (List Char)) (w : Widget) : Widget :=
  if body.isEmpty then w
  else insTagged w (joinNL body ++ ['\n']) "code_block"

/-- The heading branch: insert `title_text + '\n'` tagged
    `f"h{hash_count}"`. -/
def headStep (line : List Char) (w : Widget) : Widget :=
  insTagged w (titleText line ++ ['\n']) ("h" ++ toString (hashCount line))

/-- The blockquote branch body for a grouped run of quote lines. -/
def quoteStep (grp : List (List Char)) (w : Widget) : Widget :=
  if grp.isEmpty then w
  else insTagged w (joinNL (grp.map stripQuote) ++ ['\n']) "blockquote"

/-- The list-item branch: insert `clean_line + '\n'` tagged `list_item`. -/
def listStep (line : List Char) (w : Widget) : Widget :=
  insTagged w (cleanLine line ++ ['\n']) "list_item"

/-- The horizontal-rule branch: 50 rule glyphs, tagged `normal`. -/
def hrStep (w : Widget) : Widget :=
  insTagged w (List.replicate 50 '─' ++ ['\n']) "normal"

/-- The paragraph branch: run the inline formatter, insert the processed
    text plus `'\n'`, then `_apply_format_tags` adds one `tag_add` per
    recorded format at `line_start + start` / `line_start + end`. -/
def paraStep (line : List Char) (w : Widget) : Widget :=
  let pf := process_inline_formatting line
  { out := w.out ++ pf.text ++ ['\n']
    tags := w.tags ++ pf.formats.map
      (fun f => ⟨f.type, (w.out.length : Int) + f.start, (w.out.length : Int) + f.stop⟩) }

/-- The `while i < len(lines)` loop of `_render_markdown_text`.  The fence
    branch consumes lines up to (and then skips) the next fence line; the
    blockquote branch consumes the maximal run of quote lines (the grouped
    run is `line :: rest.takeWhile quoteCond`, which equals
    `(line :: rest).takeWhile quoteCond` since the branch condition gives
    `quoteCond line`); every other branch consumes one line. -/
def renderLinesF : Nat → List (List Char) → Widget → Widget
  | 0, _, w => w
  | _ + 1, [], w => w
  | fuel + 1, line :: rest, w =>
    if fenceCond line then
      renderLinesF fuel ((rest.dropWhile (fun x => !fenceCond x)).drop 1)
        (fenceStep (rest.takeWhile (fun x => !fenceCond x)) w)
    else if headCond line then
      renderLinesF fuel rest (headStep line w)
    else if quoteCond line then
      renderLinesF fuel (rest.dropWhile quoteCond)
        (quoteStep (line :: rest.takeWhile quoteCond) w)
    else if isUnordered line || isOrdered line then
      renderLinesF fuel rest (listStep line w)
    else if isHR line then
      renderLinesF fuel rest (hrStep w)
    else
      renderLinesF fuel rest (paraStep line w)

/-- The loop, with the fuel instantiated to the number of lines (each
    iteration consumes at least one line, so this fuel never runs out). -/
def render_markdown_lines (ls : List (List Char)) (w : Widget) : Widget :=
  renderLinesF ls.length ls w

/-- `render_as_markdown`: clear the widget, then `_render_markdown_text`
    (which returns immediately on empty text). -/
def render_as_markdown (raw : List Char) : Widget :=
  if raw.isEmpty then emptyW else render_markdown_lines (pySplitNL raw) emptyW

/-- `render_as_plain_text`: clear the widget, insert `raw_content`
    verbatim, tag everything `normal`. -/
def render_as_plain_text (raw : List Char) : Widget :=
  wTag (wIns emptyW raw) "normal" 0 raw.length

/-!  ## Helper lemmas about the inline formatter  -/

theorem startsWithL_length {p l : List Char} (h : startsWithL p l = true) :
    p.length ≤ l.length :=
  List.IsPrefix.length_le (List.isPrefixOf_iff_prefix.mp h)

theorem splice_length {l : List Char} {a : Nat} (b : Nat) (c : List Char)
    (h : a ≤ l.length) :
    (splice l a b c).length = a + c.length + (l.length - b) := by
  simp [splice, List.length_take, List.length_drop]
  omega

theorem tryCode_spec {l : List Char} {len : Nat} {cont : List Char}
    (h : tryCode l = some (len, cont)) :
    len = cont.length + 2 ∧ 1 ≤ cont.length ∧ len ≤ l.length := by
  match l with
  | [] => simp [tryCode] at h
  | c :: t =>
    simp only [tryCode] at h
    split at h
    · split at h
      · rename_i hcond
        simp only [Option.some.injEq, Prod.mk.injEq] at h
        obtain ⟨hlen, hcont⟩ := h
        obtain ⟨h1, h2⟩ := hcond
        have hclen : cont.length = (t.takeWhile (· ≠ backtick)).length := by
          rw [← hcont]
        have hlt : (t.takeWhile (· ≠ backtick)).length < t.length := by
          by_contra hge
          push_neg at hge
          exact h2 (List.drop_eq_nil_of_le hge)
        simp only [List.length_cons]
        omega
      · exact absurd h (by simp)
    · exact absurd h (by simp)

theorem tryStrike_spec {l : List Char} {len : Nat} {cont : List Char}
    (h : tryStrike l = some (len, cont)) :
    len = cont.length + 4 ∧ 1 ≤ cont.length ∧ len ≤ l.length := by
  simp only [tryStrike] at h
  split at h
  · rename_i hpre
    split at h
    · rename_i hcond
      simp only [Option.some.injEq, Prod.mk.injEq] at h
      obtain ⟨hlen, hcont⟩ := h
      obtain ⟨h1, h2⟩ := hcond
      have hclen : cont.length = ((l.drop 2).takeWhile (· ≠ '~')).length := by
        rw [← hcont]
      have hpl : 2 ≤ l.length := by simpa using startsWithL_length hpre
      have hcl : 2 ≤ ((l.drop 2).drop
          ((l.drop 2).takeWhile (· ≠ '~')).length).length := by
        simpa using startsWithL_length h2
      simp only [List.length_drop] at hcl
      omega
    · exact absurd h (by simp)
  · exact absurd h (by simp)

theorem tryBoldItalic_spec {l : List Char} {len : Nat} {cont : List Char}
    (h : tryBoldItalic l = some (len, cont)) :
    len = cont.length + 6 ∧ 1 ≤ cont.length ∧ len ≤ l.length := by
  simp only [tryBoldItalic] at h
  split at h
  · rename_i hpre
    split at h
    · rename_i hcond
      simp only [Option.some.injEq, Prod.mk.injEq] at h
      obtain ⟨hlen, hcont⟩ := h
      obtain ⟨h1, h2⟩ := hcond
      have hclen : cont.length = ((l.drop 3).takeWhile (· ≠ '*')).length := by
        rw [← hcont]
      have hpl : 3 ≤ l.length := by simpa using startsWithL_length hpre
      have hcl : 3 ≤ ((l.drop 3).drop
          ((l.drop 3).takeWhile (· ≠ '*')).length).length := by
        simpa using startsWithL_length h2
      simp only [List.length_drop] at hcl
      omega
    · exact absurd h (by simp)
  · exact absurd h (by simp)

theorem tryBold_spec {l : List Char} {len : Nat} {cont : List Char}
    (h : tryBold l = some (len, cont)) :
    len = cont.length + 4 ∧ 1 ≤ cont.length ∧ len ≤ l.length := by
  simp only [tryBold] at h
  split at h
  · rename_i hpre
    split at h
    · rename_i hcond
      simp only [Option.some.injEq, Prod.mk.injEq] at h
      obtain ⟨hlen, hcont⟩ := h
      obtain ⟨h1, h2⟩ := hcond
      have hclen : cont.length = ((l.drop 2).takeWhile (· ≠ '*')).length := by
        rw [← hcont]
      have hpl : 2 ≤ l.length := by simpa using startsWithL_length hpre
      have hcl : 2 ≤ ((l.drop 2).drop
          ((l.drop 2).takeWhile (· ≠ '*')).length).length := by
        simpa using startsWithL_length h2
      simp only [List.length_drop] at hcl
      omega
    · exact absurd h (by simp)
  · exact absurd h (by simp)

theorem tryItalic_spec {l : List Char} {len : Nat} {cont : List Char}
    (h : tryItalic l = some (len, cont)) :
    len = cont.length + 2 ∧ 1 ≤ cont.length ∧ len ≤ l.length := by
  simp only [tryItalic] at h
  split at h
  · rename_i hpre
    split at h
    · rename_i hcond
      simp only [Option.some.injEq, Prod.mk.injEq] at h
      obtain ⟨hlen, hcont⟩ := h
      obtain ⟨h1, h2⟩ := hcond
      have hclen : cont.length = ((l.drop 1).takeWhile (· ≠ '*')).length := by
        rw [← hcont]
      have hpl : 1 ≤ l.length := by simpa using startsWithL_length hpre
      have hcl : 1 ≤ ((l.drop 1).drop
          ((l.drop 1).takeWhile (· ≠ '*')).length).length := by
        simpa using startsWithL_length h2
      simp only [List.length_drop] at hcl
      omega
    · exact absurd h (by simp)
  · exact absurd h (by simp)

theorem tryLink_spec {l : List Char} {len : Nat} {cont : List Char}
    (h : tryLink l = some (len, cont)) :
    cont.length + 4 ≤ len ∧ 1 ≤ cont.length ∧ len ≤ l.length := by
  simp only [tryLink] at h
  split at h
  · rename_i hpre
    split at h
    · rename_i hcond1
      split at h
      · rename_i hcond2
        simp only [Option.some.injEq, Prod.mk.injEq] at h
        obtain ⟨hlen, hcont⟩ := h
        obtain ⟨h1, h2⟩ := hcond1
        obtain ⟨h3, h4⟩ := hcond2
        have hclen : cont.length = ((l.drop 1).takeWhile (· ≠ ']')).length := by
          rw [← hcont]
        have hpl : 1 ≤ l.length := by simpa using startsWithL_length hpre
        have h2' : 2 ≤ ((l.drop 1).drop
            ((l.drop 1).takeWhile (· ≠ ']')).length).length := by
          simpa using startsWithL_length h2
        have h4' : 1 ≤ (((l.drop 1).drop (((l.drop 1).takeWhile (· ≠ ']')).length + 2)).drop
            (((l.drop 1).drop (((l.drop 1).takeWhile (· ≠ ']')).length + 2)).takeWhile
              (· ≠ ')')).length).length := by
          simpa using startsWithL_length h4
        simp only [List.length_drop] at h2' h4'
        omega
      · exact absurd h (by simp)
    · exact absurd h (by simp)
  · exact absurd h (by simp)

theorem finditerF_mem_bounds {t : List Char → Option (Nat × List Char)}
    (ht : ∀ l' len cont, t l' = some (len, cont) → 1 ≤ len ∧ len ≤ l'.length) :
    ∀ fuel (l : List Char) (pos : Nat) m, m ∈ finditerF t fuel l pos →
      pos ≤ m.1 ∧ m.1 < m.2.1 ∧ m.2.1 ≤ pos + l.length := by
  intro fuel
  induction fuel with
  | zero => intro l pos m hm; simp [finditerF] at hm
  | succ n ih =>
    intro l pos m hm
    obtain ⟨ms, me, mc⟩ := m
    match l with
    | [] => simp [finditerF] at hm
    | c :: rest =>
      rw [finditerF] at hm
      split at hm
      · rename_i len cont htc
        obtain ⟨h1, h2⟩ := ht _ _ _ htc
        simp only [List.length_cons] at h2 ⊢
        rcases List.mem_cons.mp hm with hm | hm
        · simp only [Prod.mk.injEq] at hm
          obtain ⟨e1, e2, e3⟩ := hm
          subst e1; subst e2
          omega
        · obtain ⟨ihm1, ihm2, ihm3⟩ := ih _ _ _ hm
          dsimp only at ihm1 ihm2 ihm3
          simp only [List.length_drop] at ihm3
          omega
      · rename_i htc
        obtain ⟨ihm1, ihm2, ihm3⟩ := ih _ _ _ hm
        dsimp only at ihm1 ihm2 ihm3
        simp only [List.length_cons, List.length_drop] at ihm3 ⊢
        omega

theorem finditerF_sorted {t : List Char → Option (Nat × List Char)}
    (ht : ∀ l' len cont, t l' = some (len, cont) → 1 ≤ len ∧ len ≤ l'.length) :
    ∀ fuel (l : List Char) (pos : Nat),
      List.Pairwise (fun a b => a.2.1 ≤ b.1) (finditerF t fuel l pos) := by
  intro fuel
  induction fuel with
  | zero => intro l pos; simp [finditerF]
  | succ n ih =>
    intro l pos
    match l with
    | [] => simp [finditerF]
    | c :: rest =>
      rw [finditerF]
      split
      · rename_i len cont htc
        refine List.Pairwise.cons ?_ (ih _ _)
        intro b hb
        have hbnd := (finditerF_mem_bounds ht _ _ _ _ hb).1
        simpa using hbnd
      · exact ih _ _

theorem finditerF_mem_prop {t : List Char → Option (Nat × List Char)}
    {P : Nat → List Char → Prop}
    (ht : ∀ l' len cont, t l' = some (len, cont) → P len cont) :
    ∀ fuel (l : List Char) (pos : Nat) m, m ∈ finditerF t fuel l pos →
      P (m.2.1 - m.1) m.2.2 := by
  intro fuel
  induction fuel with
  | zero => intro l pos m hm; simp [finditerF] at hm
  | succ n ih =>
    intro l pos m hm
    match l with
    | [] => simp [finditerF] at hm
    | c :: rest =>
      rw [finditerF] at hm
      split at hm
      · rename_i len cont htc
        rcases List.mem_cons.mp hm with hm | hm
        · subst hm
          simpa using ht _ _ _ htc
        · exact ih _ _ _ hm
      · exact ih _ _ _ hm

theorem runPass_cons (ty : String) (adjust check : Bool)
    (delta : Nat → Nat → List Char → Nat) (cr : List (Nat × Nat))
    (m : Nat × Nat × List Char) (rest : List (Nat × Nat × List Char)) (st : PassSt) :
    runPass ty adjust check delta cr (m :: rest) st =
      passStep ty adjust check delta cr (runPass ty adjust check delta cr rest st) m := by
  rw [runPass, runPass, List.foldl_reverse, List.foldl_reverse, List.foldr_cons]

theorem runPass_nil (ty : String) (adjust check : Bool)
    (delta : Nat → Nat → List Char → Nat) (cr : List (Nat × Nat)) (st : PassSt) :
    runPass ty adjust check delta cr [] st = st := rfl

/-- Core bookkeeping invariant of one pass: with the matches sorted
    left-to-right and each match spanning exactly its content plus its
    removed delimiter count, the pass preserves `text length + offset`,
    and the text never gets shorter than any lower bound below all match
    starts (processing is right-to-left, so the prefix left of the
    leftmost match is untouched). -/
theorem runPass_len_off (ty : String) (adjust check : Bool)
    (delta : Nat → Nat → List Char → Nat) (cr : List (Nat × Nat)) :
    ∀ (ms : List (Nat × Nat × List Char)) (st : PassSt),
      List.Pairwise (fun a b => a.2.1 ≤ b.1) ms →
      (∀ m ∈ ms, m.1 + m.2.2.length + delta m.1 m.2.1 m.2.2 = m.2.1) →
      (∀ m ∈ ms, m.2.1 ≤ st.text.length) →
      ((runPass ty adjust check delta cr ms st).text.length +
          (runPass ty adjust check delta cr ms st).offset =
        st.text.length + st.offset) ∧
      (∀ b : Nat, (∀ m ∈ ms, b ≤ m.1) → b ≤ st.text.length →
        b ≤ (runPass ty adjust check delta cr ms st).text.length) := by
  intro ms
  induction ms with
  | nil =>
    intro st _ _ _
    rw [runPass_nil]
    exact ⟨rfl, fun b _ hb => hb⟩
  | cons m rest ih =>
    intro st hsorted hshape hbound
    rw [runPass_cons]
    obtain ⟨hsortm, hsorted'⟩ := List.pairwise_cons.mp hsorted
    obtain ⟨ihlen, ihlb⟩ := ih st hsorted'
      (fun m' hm' => hshape m' (List.mem_cons_of_mem _ hm'))
      (fun m' hm' => hbound m' (List.mem_cons_of_mem _ hm'))
    have hshm := hshape m (List.mem_cons_self _ _)
    have hbm := hbound m (List.mem_cons_self _ _)
    have hme : m.2.1 ≤ (runPass ty adjust check delta cr rest st).text.length :=
      ihlb m.2.1 (fun m' hm' => hsortm m' hm') hbm
    have hms : m.1 ≤ (runPass ty adjust check delta cr rest st).text.length := by
      omega
    constructor
    · unfold passStep
      split
      · exact ihlen
      · dsimp only
        rw [splice_length m.2.1 m.2.2 hms]
        omega
    · intro b hb hbL
      have hbm1 : b ≤ m.1 := hb m (List.mem_cons_self _ _)
      unfold passStep
      split
      · exact ihlb b (fun m' hm' => hb m' (List.mem_cons_of_mem _ hm')) hbL
      · dsimp only
        rw [splice_length m.2.1 m.2.2 hms]
        omega

/-- The three `runPass_len_off` side conditions hold for every `finditer`
    result of a pattern with an exact content/delimiter length split. -/
theorem finditer_sorted_of_len {tX : List Char → Option (Nat × List Char)}
    (htb : ∀ l' len cont, tX l' = some (len, cont) → 1 ≤ len ∧ len ≤ l'.length)
    (txt : List Char) :
    List.Pairwise (fun a b => a.2.1 ≤ b.1) (finditer tX txt 0) :=
  finditerF_sorted htb _ _ _

theorem finditer_bound_of_len {tX : List Char → Option (Nat × List Char)}
    (htb : ∀ l' len cont, tX l' = some (len, cont) → 1 ≤ len ∧ len ≤ l'.length)
    (txt : List Char) :
    ∀ m ∈ finditer tX txt 0, m.2.1 ≤ txt.length := by
  intro m hm
  have h := (finditerF_mem_bounds htb _ _ _ m hm).2.2
  simpa using h

theorem finditer_shape_of_spec {tX : List Char → Option (Nat × List Char)} {d : Nat}
    (hspec : ∀ l' len cont, tX l' = some (len, cont) →
      len = cont.length + d ∧ 1 ≤ cont.length ∧ len ≤ l'.length)
    (txt : List Char) :
    ∀ m ∈ finditer tX txt 0, m.1 + m.2.2.length + d = m.2.1 := by
  intro m hm
  have htb : ∀ l' len cont, tX l' = some (len, cont) → 1 ≤ len ∧ len ≤ l'.length := by
    intro l' len cont h
    obtain ⟨h1, h2, h3⟩ := hspec l' len cont h
    omega
  have hp := finditerF_mem_prop (P := fun len cont => len = cont.length + d)
    (fun l' len cont h => (hspec l' len cont h).1) _ _ _ m hm
  have hb := finditerF_mem_bounds htb _ _ _ m hm
  omega

theorem finditer_shape_link (txt : List Char) :
    ∀ m ∈ finditer tryLink txt 0,
      m.1 + m.2.2.length + ((m.2.1 - m.1) - m.2.2.length) = m.2.1 := by
  intro m hm
  have htb : ∀ l' len cont, tryLink l' = some (len, cont) → 1 ≤ len ∧ len ≤ l'.length := by
    intro l' len cont h
    obtain ⟨h1, h2, h3⟩ := tryLink_spec h
    omega
  have hp := finditerF_mem_prop (P := fun len cont => cont.length + 4 ≤ len)
    (fun l' len cont h => (tryLink_spec h).1) _ _ _ m hm
  have hb := finditerF_mem_bounds htb _ _ _ m hm
  omega

/-- `text length + offset` preservation for a pass whose pattern removes a
    fixed number `d` of delimiter characters per accepted match. -/
theorem pass_const_len_off {tX : List Char → Option (Nat × List Char)} {d : Nat}
    (hspec : ∀ l' len cont, tX l' = some (len, cont) →
      len = cont.length + d ∧ 1 ≤ cont.length ∧ len ≤ l'.length)
    (ty : String) (adjust check : Bool) (cr : List (Nat × Nat)) (st : PassSt) :
    (runPass ty adjust check (fun _ _ _ => d) cr (finditer tX st.text 0) st).text.length +
      (runPass ty adjust check (fun _ _ _ => d) cr (finditer tX st.text 0) st).offset =
      st.text.length + st.offset := by
  have htb : ∀ l' len cont, tX l' = some (len, cont) → 1 ≤ len ∧ len ≤ l'.length := by
    intro l' len cont h
    obtain ⟨h1, h2, h3⟩ := hspec l' len cont h
    omega
  refine (runPass_len_off _ _ _ _ _ _ _ ?_ ?_ ?_).1
  · exact finditer_sorted_of_len htb st.text
  · intro m hm
    simpa using finditer_shape_of_spec hspec st.text m hm
  · exact finditer_bound_of_len htb st.text

/-- `text length + offset` preservation for the link pass, whose removed
    count is `len(match) - len(label)`. -/
theorem pass_link_len_off (ty : String) (adjust check : Bool)
    (cr : List (Nat × Nat)) (st : PassSt) :
    (runPass ty adjust check (fun s e cont => (e - s) - cont.length) cr
        (finditer tryLink st.text 0) st).text.length +
      (runPass ty adjust check (fun s e cont => (e - s) - cont.length) cr
        (finditer tryLink st.text 0) st).offset =
      st.text.length + st.offset := by
  have htb : ∀ l' len cont, tryLink l' = some (len, cont) → 1 ≤ len ∧ len ≤ l'.length := by
    intro l' len cont h
    obtain ⟨h1, h2, h3⟩ := tryLink_spec h
    omega
  refine (runPass_len_off _ _ _ _ _ _ _ ?_ ?_ ?_).1
  · exact finditer_sorted_of_len htb st.text
  · intro m hm
    simpa using finditer_shape_link st.text m hm
  · exact finditer_bound_of_len htb st.text

/-- Every format record a pass appends carries that pass's type tag. -/
theorem runPass_formats_mem (ty : String) (adjust check : Bool)
    (delta : Nat → Nat → List Char → Nat) (cr : List (Nat × Nat)) :
    ∀ ms st g, g ∈ (runPass ty adjust check delta cr ms st).formats →
      g ∈ st.formats ∨ g.type = ty := by
  intro ms
  induction ms with
  | nil => intro st g hg; rw [runPass_nil] at hg; exact Or.inl hg
  | cons m rest ih =>
    intro st g hg
    rw [runPass_cons] at hg
    unfold passStep at hg
    split at hg
    · exact ih st g hg
    · dsimp only at hg
      rcases List.mem_append.mp hg with hg | hg
      · exact ih st g hg
      · simp only [List.mem_singleton] at hg
        subst hg
        exact Or.inr rfl

/-- With `check := false` every match is accepted, so the final offset is
    the initial offset plus the sum of the per-match removal counts. -/
theorem runPass_nocheck_offset (ty : String) (adjust : Bool)
    (delta : Nat → Nat → List Char → Nat) (cr : List (Nat × Nat)) :
    ∀ ms st, (runPass ty adjust false delta cr ms st).offset =
      st.offset + (ms.map (fun m => delta m.1 m.2.1 m.2.2)).sum := by
  intro ms
  induction ms with
  | nil => intro st; rw [runPass_nil]; simp
  | cons m rest ih =>
    intro st
    rw [runPass_cons]
    unfold passStep
    simp only [Bool.false_and, Bool.false_eq_true, if_false, List.map_cons, List.sum_cons]
    rw [ih st]
    omega

/-- Formats appended by a non-adjusting pass start at or after any lower
    bound below all the pass's match starts. -/
theorem runPass_formats_lb_noadjust (ty : String) (check : Bool)
    (delta : Nat → Nat → List Char → Nat) (cr : List (Nat × Nat)) :
    ∀ ms st (b : Nat), (∀ m ∈ ms, b ≤ m.1) →
      ∀ g ∈ (runPass ty false check delta cr ms st).formats,
        g ∈ st.formats ∨ (b : Int) ≤ g.start := by
  intro ms
  induction ms with
  | nil => intro st b hb g hg; rw [runPass_nil] at hg; exact Or.inl hg
  | cons m rest ih =>
    intro st b hb g hg
    rw [runPass_cons] at hg
    unfold passStep at hg
    split at hg
    · exact ih st b (fun m' h => hb m' (List.mem_cons_of_mem _ h)) g hg
    · dsimp only at hg
      rcases List.mem_append.mp hg with hg | hg
      · exact ih st b (fun m' h => hb m' (List.mem_cons_of_mem _ h)) g hg
      · simp only [List.mem_singleton] at hg
        subst hg
        right
        simp only [Bool.false_eq_true, if_false]
        exact_mod_cast hb m (List.mem_cons_self _ _)

/-- Formats appended by the adjusting pass (pass 1) start at or after the
    lower bound shifted by the whole pass's removal total. -/
theorem runPass_formats_lb_adjust (ty : String)
    (delta : Nat → Nat → List Char → Nat) (cr : List (Nat × Nat)) :
    ∀ ms st (b : Nat), (∀ m ∈ ms, b ≤ m.1) →
      ∀ g ∈ (runPass ty true false delta cr ms st).formats,
        g ∈ st.formats ∨
          (b : Int) - st.offset - ((ms.map (fun m => delta m.1 m.2.1 m.2.2)).sum : Nat) ≤
            g.start := by
  intro ms
  induction ms with
  | nil => intro st b hb g hg; rw [runPass_nil] at hg; exact Or.inl hg
  | cons m rest ih =>
    intro st b hb g hg
    rw [runPass_cons] at hg
    unfold passStep at hg
    simp only [Bool.false_and, Bool.false_eq_true, if_false] at hg
    rcases List.mem_append.mp hg with hg | hg
    · rcases ih st b (fun m' h => hb m' (List.mem_cons_of_mem _ h)) g hg with hg0 | hlb
      · exact Or.inl hg0
      · right
        simp only [List.map_cons, List.sum_cons]
        push_cast at hlb ⊢
        omega
    · simp only [List.mem_singleton] at hg
      subst hg
      right
      have hoff := runPass_nocheck_offset ty true delta cr rest st
      have hbm : b ≤ m.1 := hb m (List.mem_cons_self _ _)
      simp only [if_pos rfl, List.map_cons, List.sum_cons]
      rw [hoff]
      push_cast
      omega

set_option maxHeartbeats 1000000 in
/-- Non-adjusting pass: appending its (right-to-left) format records keeps
    the format list pairwise compatible — records of one pass never overlap
    one another, and records of earlier passes have other type tags. -/
theorem runPass_pairwise_noadjust (ty : String) (check : Bool)
    (delta : Nat → Nat → List Char → Nat) (cr : List (Nat × Nat)) :
    ∀ ms st,
      List.Pairwise (fun a b => a.2.1 ≤ b.1) ms →
      (∀ m ∈ ms, m.1 + m.2.2.length ≤ m.2.1) →
      (∀ f ∈ st.formats, f.type ≠ ty) →
      List.Pairwise (fun f g : Fmt => f.type = g.type → f.stop ≤ g.start ∨ g.stop ≤ f.start)
        st.formats →
      List.Pairwise (fun f g : Fmt => f.type = g.type → f.stop ≤ g.start ∨ g.stop ≤ f.start)
        (runPass ty false check delta cr ms st).formats := by
  intro ms
  induction ms with
  | nil => intro st _ _ _ hp; rw [runPass_nil]; exact hp
  | cons m rest ih =>
    intro st hsort hshape hty hp
    rw [runPass_cons]
    obtain ⟨hsortm, hsort'⟩ := List.pairwise_cons.mp hsort
    have ihp := ih st hsort' (fun m' h => hshape m' (List.mem_cons_of_mem _ h)) hty hp
    unfold passStep
    split
    · exact ihp
    · dsimp only
      rw [List.pairwise_append]
      refine ⟨ihp, List.pairwise_singleton _ _, ?_⟩
      intro f hf g hg
      simp only [List.mem_singleton] at hg
      subst hg
      intro hTY
      rcases runPass_formats_lb_noadjust ty check delta cr rest st m.2.1
          (fun m' h => hsortm m' h) f hf with hf0 | hlb
      · exact absurd hTY (hty f hf0)
      · right
        have hsh := hshape m (List.mem_cons_self _ _)
        simp only [Bool.false_eq_true, if_false]
        omega

set_option maxHeartbeats 1000000 in
/-- Adjusting pass (pass 1): its format records, which subtract the running
    offset, are also pairwise compatible. -/
theorem runPass_pairwise_adjust (ty : String)
    (delta : Nat → Nat → List Char → Nat) (cr : List (Nat × Nat)) :
    ∀ ms st,
      List.Pairwise (fun a b => a.2.1 ≤ b.1) ms →
      (∀ m ∈ ms, m.1 + m.2.2.length ≤ m.2.1) →
      (∀ f ∈ st.formats, f.type ≠ ty) →
      List.Pairwise (fun f g : Fmt => f.type = g.type → f.stop ≤ g.start ∨ g.stop ≤ f.start)
        st.formats →
      List.Pairwise (fun f g : Fmt => f.type = g.type → f.stop ≤ g.start ∨ g.stop ≤ f.start)
        (runPass ty true false delta cr ms st).formats := by
  intro ms
  induction ms with
  | nil => intro st _ _ _ hp; rw [runPass_nil]; exact hp
  | cons m rest ih =>
    intro st hsort hshape hty hp
    rw [runPass_cons]
    obtain ⟨hsortm, hsort'⟩ := List.pairwise_cons.mp hsort
    have ihp := ih st hsort' (fun m' h => hshape m' (List.mem_cons_of_mem _ h)) hty hp
    unfold passStep
    simp only [Bool.false_and, Bool.false_eq_true, if_false]
    rw [List.pairwise_append]
    refine ⟨ihp, List.pairwise_singleton _ _, ?_⟩
    intro f hf g hg
    simp only [List.mem_singleton] at hg
    subst hg
    intro hTY
    rcases runPass_formats_lb_adjust ty delta cr rest st m.2.1
        (fun m' h => hsortm m' h) f hf with hf0 | hlb
    · exact absurd hTY (hty f hf0)
    · right
      have hsh := hshape m (List.mem_cons_self _ _)
      have hoff := runPass_nocheck_offset ty true delta cr rest st
      simp only [if_pos rfl]
      rw [hoff]
      push_cast at hlb ⊢
      omega

/-- Content never exceeds the match span. -/
theorem finditer_content_le {tX : List Char → Option (Nat × List Char)}
    (htb : ∀ l' len cont, tX l' = some (len, cont) → 1 ≤ len ∧ len ≤ l'.length)
    (hP : ∀ l' len cont, tX l' = some (len, cont) → cont.length ≤ len)
    (txt : List Char) :
    ∀ m ∈ finditer tX txt 0, m.1 + m.2.2.length ≤ m.2.1 := by
  intro m hm
  have hp := finditerF_mem_prop (P := fun len cont => cont.length ≤ len) hP _ _ _ m hm
  have hb := finditerF_mem_bounds htb _ _ _ m hm
  omega

/-!  ## Claim theorems: concrete evaluations  -/

/-- C1, claim as stated is false: on the line `***a**b*` the inline
    formatter returns a `bold` span (1,2) and an `italic` span (0,2),
    which overlap (`bold.start < italic.end` and `italic.start < bold.end`).
    The bold pass strips `**a**` out of `***a**b*` leaving `*ab*`, and the
    italic pass — whose overlap check only consults the inline-code ranges,
    never the bold ranges — then claims the whole of `ab`. -/
theorem C1_counterexample :
    (process_inline_formatting "***a**b*".data).formats =
      [⟨1, 2, "bold"⟩, ⟨0, 2, "italic"⟩] ∧
    ¬ (process_inline_formatting "***a**b*".data).formats.Pairwise
        (fun a b => a.stop ≤ b.start ∨ b.stop ≤ a.start) := by
  constructor
  · decide
  · decide

/-- C2, claim as stated is false: on the paragraph line of the end-to-end
    example the final text is `Some bold and italic and code.` with `code`
    at final position (25,29), but the only recorded `inline_code` span is
    (31,35) — the position of `code` before the bold/italic delimiters to
    its left were stripped — so no InlineCode span covers `code` at its
    final (post-strip) offsets. -/
theorem C2_counterexample :
    (process_inline_formatting "Some **bold** and *italic* and `code`.".data).text =
      "Some bold and italic and code.".data ∧
    (("Some bold and italic and code.".data.drop 25).take 4 = "code".data) ∧
    (process_inline_formatting "Some **bold** and *italic* and `code`.".data).formats.filter
      (fun f => f.type = "inline_code") = [⟨31, 35, "inline_code"⟩] := by
  refine ⟨by decide, by decide, by decide⟩

/-- C2 amended: the input segments into one level-1 heading `Title` and the
    paragraph `Some bold and italic and code.`, with the `bold` span at
    (5,9) over `bold` and the `italic` span at (14,20) over `italic`
    at their final post-strip offsets, but with the `inline_code` span
    recorded at (31,35) — the position `code` had before the asterisk
    delimiters to its left were stripped — not at its final position
    (25,29).  (Widget tag offsets are document offsets: the paragraph line
    starts at 7.) -/
theorem C2_end_to_end_amended :
    render_as_markdown "# Title\n\nSome **bold** and *italic* and `code`.\n".data =
      ⟨"Title\n\nSome bold and italic and code.\n\n".data,
       [⟨"h1", 0, 6⟩, ⟨"inline_code", 38, 42⟩, ⟨"bold", 12, 16⟩, ⟨"italic", 21, 27⟩]⟩ := by
  decide

/-- C3, claim as stated is false: this line contains `` `**not bold**` ``
    (first conjunct) yet its span list contains a `bold` span, and seven
    `inline_code` spans rather than exactly one.  The overlap check adds the
    *total* `offset` (14 after the code pass) to the bold candidate (0,12),
    sliding the adjusted range (14,26) past the code range (0,14) and into
    the gap before the next code range (26,29), so the bold match inside
    the code text is wrongly accepted. -/
theorem C3_counterexample :
    List.IsInfix "`**not bold**`".data
      "`**not bold**`            `a` `b` `c` `d` `e` `f`".data ∧
    (process_inline_formatting
      "`**not bold**`            `a` `b` `c` `d` `e` `f`".data).formats.filter
        (fun f => f.type = "bold") = [⟨0, 8, "bold"⟩] := by
  refine ⟨by decide, by decide⟩

/-- C3 amended: for the line consisting exactly of `` `**not bold**` ``
    (the pattern as the line's only inline construct), the span list is
    exactly one `inline_code` span (0,12) covering the entire inner text
    `**not bold**` (the whole 12-character result), and contains no `bold`
    span: the bold and italic matches inside the code range are rejected by
    the overlap check and the asterisks stay literal. -/
theorem C3_code_immunity_amended :
    (process_inline_formatting "`**not bold**`".data).text = "**not bold**".data ∧
    (process_inline_formatting "`**not bold**`".data).formats =
      [⟨0, 12, "inline_code"⟩] := by
  refine ⟨by decide, by decide⟩

/-- C4, claim as stated is false on two counts.  `"  # T"` has trimmed
    content starting with one `#` followed by a non-`#`, so the claim
    requires a level-1 Heading with text `T`; but `hash_count` is counted on
    the *untrimmed* line (yielding 0), so the code emits text `# T` tagged
    `h0`.  `"# A #"` per the claim strips the leading run and one space,
    so the heading text would be `A #`; but `line.strip('#').strip()` also
    strips the trailing `#`, producing `A`. -/
theorem C4_counterexample :
    render_as_markdown "  # T".data = ⟨"# T\n".data, [⟨"h0", 0, 4⟩]⟩ ∧
    render_as_markdown "# A #".data = ⟨"A\n".data, [⟨"h1", 0, 2⟩]⟩ := by
  refine ⟨by decide, by decide⟩

/-- C5, claim as stated is false: for the ordered list item `" 1. a"`
    (one leading space) the rendered line is `"  1. a"`, not the original —
    the substitution `\1\g<0>` *duplicates* the leading whitespace, so
    ordered items are only preserved verbatim when unindented. -/
theorem C5_counterexample :
    render_as_markdown " 1. a".data = ⟨"  1. a\n".data, [⟨"list_item", 0, 7⟩]⟩ ∧
    "  1. a".data ≠ " 1. a".data := by
  refine ⟨by decide, by decide⟩

/-- C7: PlainText mode reproduces the raw buffer verbatim,
    character for character, with the single uniform `normal` style over
    the whole of it, for every buffer content — no segmentation or inline
    formatting is applied. -/
theorem C7_plain_text_identity (raw : List Char) :
    (render_as_plain_text raw).out = raw ∧
    (render_as_plain_text raw).tags = [⟨"normal", 0, (raw.length : Int)⟩] := by
  constructor
  · simp [render_as_plain_text, wTag, wIns, emptyW]
  · simp [render_as_plain_text, wTag, wIns, emptyW]

/-- C10, claim as stated is false: `"  ## "` has trimmed content `##`
    (1–4 hashes, no title), so the claim requires a literal Paragraph
    `"  ## "`; but `hash_count` on the untrimmed line is 0 and
    `"  ## ".strip('#').strip()` is the nonempty `##`, so the heading
    branch fires, emitting text `##` (not the literal line) tagged `h0`. -/
theorem C10_counterexample :
    render_as_markdown "  ## ".data = ⟨"##\n".data, [⟨"h0", 0, 3⟩]⟩ := by
  decide

/-- C9: for every input line the inline formatter's final `offset` equals
    the total number of characters removed from the line:
    `len(line) = len(processed text) + offset`.  Each accepted match adds
    exactly its removed delimiter count (2/4/6/4/2, and full match length
    minus label length for links) to `offset` while shrinking the text by
    the same amount; skipped matches change neither. -/
theorem C9_length_offset_invariant (line : List Char) :
    line.length = (process_inline_formatting line).text.length +
      (process_inline_formatting line).offset := by
  set st0 : PassSt := ⟨line, [], 0⟩ with hst0
  set CR := (finditer tryCode st0.text 0).map (fun m => (m.1, m.2.1)) with hCR
  set st1 := runPass "inline_code" true false (fun _ _ _ => 2) CR
    (finditer tryCode st0.text 0) st0 with hst1
  set st2 := runPass "strikethrough" false true (fun _ _ _ => 4) CR
    (finditer tryStrike st1.text 0) st1 with hst2
  set st3 := runPass "bold_italic" false true (fun _ _ _ => 6) CR
    (finditer tryBoldItalic st2.text 0) st2 with hst3
  set st4 := runPass "bold" false true (fun _ _ _ => 4) CR
    (finditer tryBold st3.text 0) st3 with hst4
  set st5 := runPass "italic" false true (fun _ _ _ => 2) CR
    (finditer tryItalic st4.text 0) st4 with hst5
  set st6 := runPass "link" false true (fun s e cont => (e - s) - cont.length) CR
    (finditer tryLink st5.text 0) st5 with hst6
  have hfinal : process_inline_formatting line = st6 := by
    rw [hst6, hst5, hst4, hst3, hst2, hst1, hCR, hst0]
    rfl
  have h1 := pass_const_len_off (fun l' len cont h => tryCode_spec h) "inline_code" true false CR st0
  rw [← hst1] at h1
  have h2 := pass_const_len_off (fun l' len cont h => tryStrike_spec h) "strikethrough" false true CR st1
  rw [← hst2] at h2
  have h3 := pass_const_len_off (fun l' len cont h => tryBoldItalic_spec h) "bold_italic" false true CR st2
  rw [← hst3] at h3
  have h4 := pass_const_len_off (fun l' len cont h => tryBold_spec h) "bold" false true CR st3
  rw [← hst4] at h4
  have h5 := pass_const_len_off (fun l' len cont h => tryItalic_spec h) "italic" false true CR st4
  rw [← hst5] at h5
  have h6 := pass_link_len_off "link" false true CR st5
  rw [← hst6] at h6
  have h0t : st0.text.length = line.length := by rw [hst0]
  have h0o : st0.offset = 0 := by rw [hst0]
  rw [hfinal]
  omega

/-- C1 amended: for every input line, spans of the SAME kind in the
    returned format list never overlap (they may be adjacent); equivalently,
    any two overlapping spans must come from different passes.  This is the
    part of the claimed invariant the code actually enforces.  Kinds differ
    across passes, each pass's accepted matches are disjoint and sorted in
    its own coordinate system, and the right-to-left processing keeps the
    recorded spans of one pass disjoint (including the offset-shifted
    records of the inline-code pass).  Spans of different kinds can overlap,
    as `C1_counterexample` shows. -/
theorem C1_same_kind_spans_never_overlap (line : List Char) :
    List.Pairwise (fun f g : Fmt => f.type = g.type → f.stop ≤ g.start ∨ g.stop ≤ f.start)
      (process_inline_formatting line).formats := by
  have htbC : ∀ l' len cont, tryCode l' = some (len, cont) → 1 ≤ len ∧ len ≤ l'.length := by
    intro l' len cont h; have := tryCode_spec h; omega
  have htbS : ∀ l' len cont, tryStrike l' = some (len, cont) → 1 ≤ len ∧ len ≤ l'.length := by
    intro l' len cont h; have := tryStrike_spec h; omega
  have htbBI : ∀ l' len cont, tryBoldItalic l' = some (len, cont) →
      1 ≤ len ∧ len ≤ l'.length := by
    intro l' len cont h; have := tryBoldItalic_spec h; omega
  have htbB : ∀ l' len cont, tryBold l' = some (len, cont) → 1 ≤ len ∧ len ≤ l'.length := by
    intro l' len cont h; have := tryBold_spec h; omega
  have htbI : ∀ l' len cont, tryItalic l' = some (len, cont) → 1 ≤ len ∧ len ≤ l'.length := by
    intro l' len cont h; have := tryItalic_spec h; omega
  have htbL : ∀ l' len cont, tryLink l' = some (len, cont) → 1 ≤ len ∧ len ≤ l'.length := by
    intro l' len cont h; have := tryLink_spec h; omega
  have hcC : ∀ l' len cont, tryCode l' = some (len, cont) → cont.length ≤ len := by
    intro l' len cont h; have := tryCode_spec h; omega
  have hcS : ∀ l' len cont, tryStrike l' = some (len, cont) → cont.length ≤ len := by
    intro l' len cont h; have := tryStrike_spec h; omega
  have hcBI : ∀ l' len cont, tryBoldItalic l' = some (len, cont) → cont.length ≤ len := by
    intro l' len cont h; have := tryBoldItalic_spec h; omega
  have hcB : ∀ l' len cont, tryBold l' = some (len, cont) → cont.length ≤ len := by
    intro l' len cont h; have := tryBold_spec h; omega
  have hcI : ∀ l' len cont, tryItalic l' = some (len, cont) → cont.length ≤ len := by
    intro l' len cont h; have := tryItalic_spec h; omega
  have hcL : ∀ l' len cont, tryLink l' = some (len, cont) → cont.length ≤ len := by
    intro l' len cont h; have := tryLink_spec h; omega
  set st0 : PassSt := ⟨line, [], 0⟩ with hst0
  set CR := (finditer tryCode st0.text 0).map (fun m => (m.1, m.2.1)) with hCR
  set st1 := runPass "inline_code" true false (fun _ _ _ => 2) CR
    (finditer tryCode st0.text 0) st0 with hst1
  set st2 := runPass "strikethrough" false true (fun _ _ _ => 4) CR
    (finditer tryStrike st1.text 0) st1 with hst2
  set st3 := runPass "bold_italic" false true (fun _ _ _ => 6) CR
    (finditer tryBoldItalic st2.text 0) st2 with hst3
  set st4 := runPass "bold" false true (fun _ _ _ => 4) CR
    (finditer tryBold st3.text 0) st3 with hst4
  set st5 := runPass "italic" false true (fun _ _ _ => 2) CR
    (finditer tryItalic st4.text 0) st4 with hst5
  set st6 := runPass "link" false true (fun s e cont => (e - s) - cont.length) CR
    (finditer tryLink st5.text 0) st5 with hst6
  have hfinal : process_inline_formatting line = st6 := by
    rw [hst6, hst5, hst4, hst3, hst2, hst1, hCR, hst0]
    rfl
  have hf0 : st0.formats = [] := by rw [hst0]
  have T1 : ∀ f ∈ st1.formats, f.type = "inline_code" := by
    intro f hf
    rw [hst1] at hf
    rcases runPass_formats_mem _ _ _ _ _ _ _ f hf with h | h
    · rw [hf0] at h; exact absurd h (List.not_mem_nil f)
    · exact h
  have T2 : ∀ f ∈ st2.formats, f.type = "inline_code" ∨ f.type = "strikethrough" := by
    intro f hf
    rw [hst2] at hf
    rcases runPass_formats_mem _ _ _ _ _ _ _ f hf with h | h
    · simp [T1 f h]
    · simp [h]
  have T3 : ∀ f ∈ st3.formats, f.type = "inline_code" ∨ f.type = "strikethrough" ∨
      f.type = "bold_italic" := by
    intro f hf
    rw [hst3] at hf
    rcases runPass_formats_mem _ _ _ _ _ _ _ f hf with h | h
    · rcases T2 f h with h | h
      · simp [h]
      · simp [h]
    · simp [h]
  have T4 : ∀ f ∈ st4.formats, f.type = "inline_code" ∨ f.type = "strikethrough" ∨
      f.type = "bold_italic" ∨ f.type = "bold" := by
    intro f hf
    rw [hst4] at hf
    rcases runPass_formats_mem _ _ _ _ _ _ _ f hf with h | h
    · rcases T3 f h with h | h | h
      · simp [h]
      · simp [h]
      · simp [h]
    · simp [h]
  have T5 : ∀ f ∈ st5.formats, f.type = "inline_code" ∨ f.type = "strikethrough" ∨
      f.type = "bold_italic" ∨ f.type = "bold" ∨ f.type = "italic" := by
    intro f hf
    rw [hst5] at hf
    rcases runPass_formats_mem _ _ _ _ _ _ _ f hf with h | h
    · rcases T4 f h with h | h | h | h
      · simp [h]
      · simp [h]
      · simp [h]
      · simp [h]
    · simp [h]
  have P1 : List.Pairwise
      (fun f g : Fmt => f.type = g.type → f.stop ≤ g.start ∨ g.stop ≤ f.start)
      st1.formats := by
    rw [hst1]
    apply runPass_pairwise_adjust
    · exact finditer_sorted_of_len htbC st0.text
    · exact finditer_content_le htbC hcC st0.text
    · intro f hf; rw [hf0] at hf; exact absurd hf (List.not_mem_nil f)
    · rw [hf0]; exact List.Pairwise.nil
  have P2 : List.Pairwise
      (fun f g : Fmt => f.type = g.type → f.stop ≤ g.start ∨ g.stop ≤ f.start)
      st2.formats := by
    rw [hst2]
    apply runPass_pairwise_noadjust
    · exact finditer_sorted_of_len htbS st1.text
    · exact finditer_content_le htbS hcS st1.text
    · intro f hf
      rw [T1 f hf]
      decide
    · exact P1
  have P3 : List.Pairwise
      (fun f g : Fmt => f.type = g.type → f.stop ≤ g.start ∨ g.stop ≤ f.start)
      st3.formats := by
    rw [hst3]
    apply runPass_pairwise_noadjust
    · exact finditer_sorted_of_len htbBI st2.text
    · exact finditer_content_le htbBI hcBI st2.text
    · intro f hf
      rcases T2 f hf with h | h <;> rw [h] <;> decide
    · exact P2
  have P4 : List.Pairwise
      (fun f g : Fmt => f.type = g.type → f.stop ≤ g.start ∨ g.stop ≤ f.start)
      st4.formats := by
    rw [hst4]
    apply runPass_pairwise_noadjust
    · exact finditer_sorted_of_len htbB st3.text
    · exact finditer_content_le htbB hcB st3.text
    · intro f hf
      rcases T3 f hf with h | h | h <;> rw [h] <;> decide
    · exact P3
  have P5 : List.Pairwise
      (fun f g : Fmt => f.type = g.type → f.stop ≤ g.start ∨ g.stop ≤ f.start)
      st5.formats := by
    rw [hst5]
    apply runPass_pairwise_noadjust
    · exact finditer_sorted_of_len htbI st4.text
    · exact finditer_content_le htbI hcI st4.text
    · intro f hf
      rcases T4 f hf with h | h | h | h <;> rw [h] <;> decide
    · exact P4
  have P6 : List.Pairwise
      (fun f g : Fmt => f.type = g.type → f.stop ≤ g.start ∨ g.stop ≤ f.start)
      st6.formats := by
    rw [hst6]
    apply runPass_pairwise_noadjust
    · exact finditer_sorted_of_len htbL st5.text
    · exact finditer_content_le htbL hcL st5.text
    · intro f hf
      rcases T5 f hf with h | h | h | h | h <;> rw [h] <;> decide
    · exact P5
  rw [hfinal]
  exact P6

/-!  ## Helper lemmas about trimming and the block segmenter  -/

theorem dropWhile_all_true {p : α → Bool} :
    ∀ {xs : List α}, (∀ a ∈ xs, p a = true) → xs.dropWhile p = []
  | [], _ => rfl
  | x :: xs, h => by
    rw [List.dropWhile_cons, if_pos (h x (List.mem_cons_self _ _))]
    exact dropWhile_all_true (fun a ha => h a (List.mem_cons_of_mem _ ha))

theorem dropWhile_all_false {p : α → Bool} :
    ∀ {xs : List α}, (∀ a ∈ xs, p a = false) → xs.dropWhile p = xs
  | [], _ => rfl
  | x :: xs, h => by
    rw [List.dropWhile_cons, if_neg (by simp [h x (List.mem_cons_self _ _)])]

theorem takeWhile_all_false {p : α → Bool} :
    ∀ {xs : List α}, (∀ a ∈ xs, p a = false) → xs.takeWhile p = []
  | [], _ => rfl
  | x :: xs, h => by
    rw [List.takeWhile_cons, if_neg (by simp [h x (List.mem_cons_self _ _)])]

theorem dropWhile_append_all {p : α → Bool} {xs : List α}
    (h : ∀ a ∈ xs, p a = true) (l : List α) :
    (xs ++ l).dropWhile p = l.dropWhile p := by
  induction xs with
  | nil => rfl
  | cons x xs ih =>
    rw [List.cons_append, List.dropWhile_cons, if_pos (h x (List.mem_cons_self _ _))]
    exact ih (fun a ha => h a (List.mem_cons_of_mem _ ha))

theorem takeWhile_append_all {p : α → Bool} {xs : List α}
    (h : ∀ a ∈ xs, p a = true) (l : List α) :
    (xs ++ l).takeWhile p = xs ++ l.takeWhile p := by
  induction xs with
  | nil => rfl
  | cons x xs ih =>
    rw [List.cons_append, List.takeWhile_cons, if_pos (h x (List.mem_cons_self _ _)),
      ih (fun a ha => h a (List.mem_cons_of_mem _ ha))]
    rfl

theorem dropWhile_cons_false {p : α → Bool} {a : α} (h : p a = false) (l : List α) :
    (a :: l).dropWhile p = a :: l := by
  rw [List.dropWhile_cons, if_neg (by simp [h])]

theorem takeWhile_cons_false {p : α → Bool} {a : α} (h : p a = false) (l : List α) :
    (a :: l).takeWhile p = [] := by
  rw [List.takeWhile_cons, if_neg (by simp [h])]

/-- Take/drop through a middle stopper: if `f` fails `p`, scanning
    `A ++ f :: X` never gets past `f`. -/
theorem takeWhile_append_mid {p : α → Bool} {f : α} (hf : p f = false) :
    ∀ (A : List α) (X : List α), (A ++ f :: X).takeWhile p = A.takeWhile p := by
  intro A
  induction A with
  | nil => intro X; simp [takeWhile_cons_false hf]
  | cons a A ih =>
    intro X
    rw [List.cons_append, List.takeWhile_cons, List.takeWhile_cons]
    by_cases hpa : p a = true
    · rw [if_pos hpa, if_pos hpa, ih X]
    · simp only [Bool.not_eq_true] at hpa
      rw [if_neg (by simp [hpa]), if_neg (by simp [hpa])]

theorem dropWhile_append_mid {p : α → Bool} {f : α} (hf : p f = false) :
    ∀ (A : List α) (X : List α), (A ++ f :: X).dropWhile p = A.dropWhile p ++ f :: X := by
  intro A
  induction A with
  | nil => simp [dropWhile_cons_false hf]
  | cons a A ih =>
    intro X
    rw [List.cons_append, List.dropWhile_cons, List.dropWhile_cons]
    by_cases hpa : p a = true
    · rw [if_pos hpa, if_pos hpa, ih X]
    · simp only [Bool.not_eq_true] at hpa
      rw [if_neg (by simp [hpa]), if_neg (by simp [hpa]), List.cons_append]

theorem trimRight_cons_not_space {a : Char} (h : isPySpace a = false) (l : List Char) :
    trimRight (a :: l) = a :: trimRight l := by
  unfold trimRight
  rw [List.reverse_cons, dropWhile_append_mid h l.reverse [], List.reverse_append]
  rfl

theorem trimLeft_cons_not_space {a : Char} (h : isPySpace a = false) (l : List Char) :
    trimLeft (a :: l) = a :: l := by
  unfold trimLeft
  exact dropWhile_cons_false h l

theorem pyStrip_cons_not_space {a : Char} (h : isPySpace a = false) (l : List Char) :
    pyStrip (a :: l) = a :: trimRight l := by
  unfold pyStrip
  rw [trimLeft_cons_not_space h, trimRight_cons_not_space h]

theorem pyStrip_all_space {ws : List Char} (h : ∀ c ∈ ws, isPySpace c = true) :
    pyStrip ws = [] := by
  unfold pyStrip trimLeft trimRight
  rw [dropWhile_all_true h]
  rfl

/-- `startsWithL` through a head mismatch. -/
theorem startsWithL_cons_ne {b a : Char} {p l : List Char} (h : (b == a) = false) :
    startsWithL (b :: p) (a :: l) = false := by
  simp only [startsWithL, List.isPrefixOf, h, Bool.false_and]

theorem startsWithL_cons_same {a : Char} {p l : List Char} :
    startsWithL (a :: p) (a :: l) = startsWithL p l := by
  simp [startsWithL, List.isPrefixOf]

theorem renderLinesF_nil : ∀ (fuel : Nat) (w : Widget), renderLinesF fuel [] w = w
  | 0, _ => rfl
  | _ + 1, _ => rfl

theorem renderLinesF_fuel_irrel :
    ∀ (fuel fuel' : Nat) (ls : List (List Char)) (w : Widget),
      ls.length ≤ fuel → ls.length ≤ fuel' →
      renderLinesF fuel ls w = renderLinesF fuel' ls w := by
  intro fuel
  induction fuel with
  | zero =>
    intro fuel' ls w h h'
    have : ls = [] := List.eq_nil_of_length_eq_zero (Nat.le_zero.mp h)
    subst this
    rw [renderLinesF_nil, renderLinesF_nil]
  | succ n ih =>
    intro fuel' ls w h h'
    match ls with
    | [] => rw [renderLinesF_nil, renderLinesF_nil]
    | line :: rest =>
      match fuel' with
      | 0 => exact absurd h' (by simp)
      | m + 1 =>
        simp only [List.length_cons] at h h'
        rw [renderLinesF, renderLinesF]
        have hdf : ((rest.dropWhile (fun x => !fenceCond x)).drop 1).length ≤ rest.length := by
          have := length_dropWhile_le' (fun x => !fenceCond x) rest
          simp only [List.length_drop]
          omega
        have hdq : (rest.dropWhile quoteCond).length ≤ rest.length :=
          length_dropWhile_le' quoteCond rest
        split_ifs
        · exact ih m _ _ (by omega) (by omega)
        · exact ih m _ _ (by omega) (by omega)
        · exact ih m _ _ (by omega) (by omega)
        · exact ih m _ _ (by omega) (by omega)
        · exact ih m _ _ (by omega) (by omega)
        · exact ih m _ _ (by omega) (by omega)

theorem render_lines_nil (w : Widget) : render_markdown_lines [] w = w := rfl

theorem render_lines_cons_fence {line : List Char} (h : fenceCond line = true)
    (rest : List (List Char)) (w : Widget) :
    render_markdown_lines (line :: rest) w =
      render_markdown_lines ((rest.dropWhile (fun x => !fenceCond x)).drop 1)
        (fenceStep (rest.takeWhile (fun x => !fenceCond x)) w) := by
  unfold render_markdown_lines
  simp only [List.length_cons]
  rw [renderLinesF, if_pos h]
  apply renderLinesF_fuel_irrel
  · have := length_dropWhile_le' (fun x => !fenceCond x) rest
    simp only [List.length_drop]
    omega
  · exact le_refl _

theorem render_lines_cons_head {line : List Char} (h1 : fenceCond line = false)
    (h2 : headCond line = true) (rest : List (List Char)) (w : Widget) :
    render_markdown_lines (line :: rest) w =
      render_markdown_lines rest (headStep line w) := by
  unfold render_markdown_lines
  simp only [List.length_cons]
  rw [renderLinesF, if_neg (by simp [h1]), if_pos h2]

theorem render_lines_cons_quote {line : List Char} (h1 : fenceCond line = false)
    (h2 : headCond line = false) (h3 : quoteCond line = true)
    (rest : List (List Char)) (w : Widget) :
    render_markdown_lines (line :: rest) w =
      render_markdown_lines (rest.dropWhile quoteCond)
        (quoteStep (line :: rest.takeWhile quoteCond) w) := by
  unfold render_markdown_lines
  simp only [List.length_cons]
  rw [renderLinesF, if_neg (by simp [h1]), if_neg (by simp [h2]), if_pos h3]
  apply renderLinesF_fuel_irrel
  · exact length_dropWhile_le' quoteCond rest
  · exact le_refl _

theorem render_lines_cons_list {line : List Char} (h1 : fenceCond line = false)
    (h2 : headCond line = false) (h3 : quoteCond line = false)
    (h4 : (isUnordered line || isOrdered line) = true)
    (rest : List (List Char)) (w : Widget) :
    render_markdown_lines (line :: rest) w =
      render_markdown_lines rest (listStep line w) := by
  unfold render_markdown_lines
  simp only [List.length_cons]
  rw [renderLinesF, if_neg (by simp [h1]), if_neg (by simp [h2]), if_neg (by simp [h3]),
    if_pos h4]

theorem render_lines_cons_hr {line : List Char} (h1 : fenceCond line = false)
    (h2 : headCond line = false) (h3 : quoteCond line = false)
    (h4 : (isUnordered line || isOrdered line) = false) (h5 : isHR line = true)
    (rest : List (List Char)) (w : Widget) :
    render_markdown_lines (line :: rest) w =
      render_markdown_lines rest (hrStep w) := by
  unfold render_markdown_lines
  simp only [List.length_cons]
  rw [renderLinesF, if_neg (by simp [h1]), if_neg (by simp [h2]), if_neg (by simp [h3]),
    if_neg (by simp [h4]), if_pos h5]

theorem render_lines_cons_para {line : List Char} (h1 : fenceCond line = false)
    (h2 : headCond line = false) (h3 : quoteCond line = false)
    (h4 : (isUnordered line || isOrdered line) = false) (h5 : isHR line = false)
    (rest : List (List Char)) (w : Widget) :
    render_markdown_lines (line :: rest) w =
      render_markdown_lines rest (paraStep line w) := by
  unfold render_markdown_lines
  simp only [List.length_cons]
  rw [renderLinesF, if_neg (by simp [h1]), if_neg (by simp [h2]), if_neg (by simp [h3]),
    if_neg (by simp [h4]), if_neg (by simp [h5])]

theorem ne_of_pred {p : Char → Bool} {c : Char} (h : p c = true) (d : Char)
    (hd : p d = false) : c ≠ d := by
  intro he
  subst he
  rw [h] at hd
  exact Bool.noConfusion hd

theorem isPySpace_eq_false_of_isDigit {c : Char} (h : c.isDigit = true) :
    isPySpace c = false := by
  unfold isPySpace
  rw [decide_eq_false (ne_of_pred h ' ' (by decide)),
    decide_eq_false (ne_of_pred h '\t' (by decide)),
    decide_eq_false (ne_of_pred h '\n' (by decide)),
    decide_eq_false (ne_of_pred h '\r' (by decide)),
    decide_eq_false (ne_of_pred h '\x0b' (by decide)),
    decide_eq_false (ne_of_pred h '\x0c' (by decide))]
  rfl

/-- The block conditions other than the heading test all fail on a line
    whose first character is `#`. -/
theorem hashline_conds {k : Nat} (hk : 1 ≤ k) (rest : List Char) :
    fenceCond (List.replicate k '#' ++ rest) = false ∧
    quoteCond (List.replicate k '#' ++ rest) = false ∧
    isUnordered (List.replicate k '#' ++ rest) = false ∧
    isOrdered (List.replicate k '#' ++ rest) = false ∧
    isHR (List.replicate k '#' ++ rest) = false ∧
    startsWithL ['#'] (pyStrip (List.replicate k '#' ++ rest)) = true := by
  obtain ⟨k', rfl⟩ : ∃ k', k = k' + 1 := ⟨k - 1, by omega⟩
  rw [List.replicate_succ, List.cons_append]
  have hsp : isPySpace '#' = false := by decide
  have hps : pyStrip ('#' :: (List.replicate k' '#' ++ rest)) =
      '#' :: trimRight (List.replicate k' '#' ++ rest) := pyStrip_cons_not_space hsp _
  refine ⟨?_, ?_, ?_, ?_, ?_, ?_⟩
  · rw [fenceCond, hps]
    exact startsWithL_cons_ne (by decide)
  · rw [quoteCond, hps]
    exact startsWithL_cons_ne (by decide)
  · rw [isUnordered, dropWhile_cons_false hsp]
    cases List.replicate k' '#' ++ rest with
    | nil => rfl
    | cons s xs => simp
  · rw [isOrdered]
    rw [dropWhile_cons_false hsp, takeWhile_cons_false (by decide)]
    simp
  · rw [isHR]
    rw [dropWhile_cons_false hsp, takeWhile_cons_false (by decide)]
    simp
  · rw [hps, startsWithL_cons_same]
    simp [startsWithL]

theorem hashCount_replicate {k : Nat} {rest : List Char}
    (hr : ∀ c ∈ rest.take 1, c ≠ '#') :
    hashCount (List.replicate k '#' ++ rest) = k := by
  unfold hashCount
  rw [takeWhile_append_all (p := fun c => decide (c = '#'))
    (fun a ha => by simp [List.eq_of_mem_replicate ha]) rest]
  cases rest with
  | nil => simp
  | cons c cs =>
    rw [takeWhile_cons_false (p := fun c => decide (c = '#'))
      (decide_eq_false (hr c (by simp)))]
    simp

theorem titleText_hash_ws {k : Nat} {ws : List Char}
    (hws : ∀ c ∈ ws, isPySpace c = true) :
    titleText (List.replicate k '#' ++ ws) = [] := by
  have hwsne : ∀ c ∈ ws, (decide (c = '#')) = false := by
    intro c hc
    have hcs := hws c hc
    refine decide_eq_false ?_
    intro he
    subst he
    exact absurd hcs (by decide)
  unfold titleText stripChar
  rw [dropWhile_append_all (p := fun c => decide (c = '#'))
    (fun a ha => by simp [List.eq_of_mem_replicate ha]) ws]
  rw [dropWhile_all_false hwsne,
    dropWhile_all_false (fun c hc => hwsne c (List.mem_reverse.mp hc)),
    List.reverse_reverse]
  exact pyStrip_all_space hws

theorem finditerF_none {t : List Char → Option (Nat × List Char)} :
    ∀ (fuel : Nat) (l : List Char) (pos : Nat),
      (∀ s : List Char, s <:+ l → t s = none) → finditerF t fuel l pos = [] := by
  intro fuel
  induction fuel with
  | zero => intro l pos h; rfl
  | succ n ih =>
    intro l pos h
    match l with
    | [] => rfl
    | c :: rest =>
      rw [finditerF]
      rw [h (c :: rest) (List.suffix_refl _)]
      exact ih rest (pos + 1) (fun s hs => h s (hs.trans (List.suffix_cons c rest)))

theorem tryCode_none {s : List Char} (h : ∀ c ∈ s.take 1, c ≠ backtick) :
    tryCode s = none := by
  cases s with
  | nil => rfl
  | cons c cs =>
    rw [tryCode]
    rw [if_neg (h c (by simp))]

theorem tryStrike_none {s : List Char} (h : ∀ c ∈ s.take 1, c ≠ '~') :
    tryStrike s = none := by
  cases s with
  | nil => rfl
  | cons c cs =>
    rw [tryStrike, if_neg ?_]
    rw [startsWithL_cons_ne (beq_eq_false_iff_ne.mpr (fun he => h c (by simp) he.symm))]
    exact Bool.false_ne_true

theorem tryBoldItalic_none {s : List Char} (h : ∀ c ∈ s.take 1, c ≠ '*') :
    tryBoldItalic s = none := by
  cases s with
  | nil => rfl
  | cons c cs =>
    rw [tryBoldItalic, if_neg ?_]
    rw [startsWithL_cons_ne (beq_eq_false_iff_ne.mpr (fun he => h c (by simp) he.symm))]
    exact Bool.false_ne_true

theorem tryBold_none {s : List Char} (h : ∀ c ∈ s.take 1, c ≠ '*') :
    tryBold s = none := by
  cases s with
  | nil => rfl
  | cons c cs =>
    rw [tryBold, if_neg ?_]
    rw [startsWithL_cons_ne (beq_eq_false_iff_ne.mpr (fun he => h c (by simp) he.symm))]
    exact Bool.false_ne_true

theorem tryItalic_none {s : List Char} (h : ∀ c ∈ s.take 1, c ≠ '*') :
    tryItalic s = none := by
  cases s with
  | nil => rfl
  | cons c cs =>
    rw [tryItalic, if_neg ?_]
    rw [startsWithL_cons_ne (beq_eq_false_iff_ne.mpr (fun he => h c (by simp) he.symm))]
    exact Bool.false_ne_true

theorem tryLink_none {s : List Char} (h : ∀ c ∈ s.take 1, c ≠ '[') :
    tryLink s = none := by
  cases s with
  | nil => rfl
  | cons c cs =>
    rw [tryLink, if_neg ?_]
    rw [startsWithL_cons_ne (beq_eq_false_iff_ne.mpr (fun he => h c (by simp) he.symm))]
    exact Bool.false_ne_true

/-- On a line containing none of the delimiter characters the inline
    formatter is the identity: text unchanged, no formats, zero offset. -/
theorem processInline_no_delims {line : List Char}
    (h : ∀ c ∈ line, c ≠ backtick ∧ c ≠ '~' ∧ c ≠ '*' ∧ c ≠ '[') :
    process_inline_formatting line = ⟨line, [], 0⟩ := by
  have hmem : ∀ (s : List Char), s <:+ line → ∀ c ∈ s.take 1, c ∈ line := by
    intro s hs c hc
    exact hs.subset (List.mem_of_mem_take hc)
  have hC : finditer tryCode line 0 = [] :=
    finditerF_none _ _ _ (fun s hs => tryCode_none (fun c hc => (h c (hmem s hs c hc)).1))
  have hS : finditer tryStrike line 0 = [] :=
    finditerF_none _ _ _ (fun s hs => tryStrike_none (fun c hc => (h c (hmem s hs c hc)).2.1))
  have hBI : finditer tryBoldItalic line 0 = [] :=
    finditerF_none _ _ _
      (fun s hs => tryBoldItalic_none (fun c hc => (h c (hmem s hs c hc)).2.2.1))
  have hB : finditer tryBold line 0 = [] :=
    finditerF_none _ _ _
      (fun s hs => tryBold_none (fun c hc => (h c (hmem s hs c hc)).2.2.1))
  have hI : finditer tryItalic line 0 = [] :=
    finditerF_none _ _ _
      (fun s hs => tryItalic_none (fun c hc => (h c (hmem s hs c hc)).2.2.1))
  have hL : finditer tryLink line 0 = [] :=
    finditerF_none _ _ _
      (fun s hs => tryLink_none (fun c hc => (h c (hmem s hs c hc)).2.2.2))
  simp only [process_inline_formatting, hC, hS, hBI, hB, hI, hL, List.map_nil, runPass_nil]

/-- C10 amended: a line consisting of 1–4 `#` *at the very start of the
    line* followed by only whitespace produces no heading: `title_text`
    is empty, the heading branch falls through, and the line is rendered as
    a literal paragraph line with no tag.  (With leading whitespace the
    heading branch fires instead, see `C10_counterexample`.) -/
theorem C10_empty_heading_amended (k : Nat) (ws : List Char)
    (hk1 : 1 ≤ k) (hk4 : k ≤ 4) (hws : ∀ c ∈ ws, isPySpace c = true) :
    render_markdown_lines [List.replicate k '#' ++ ws] emptyW =
      ⟨(List.replicate k '#' ++ ws) ++ ['\n'], []⟩ := by
  obtain ⟨hf, hq, hu, ho, hh, hs⟩ := hashline_conds hk1 ws
  have ht : titleText (List.replicate k '#' ++ ws) = [] := titleText_hash_ws hws
  have hhead : headCond (List.replicate k '#' ++ ws) = false := by
    unfold headCond
    rw [ht]
    simp
  rw [render_lines_cons_para hf hhead hq (by simp [hu, ho]) hh, render_lines_nil]
  unfold paraStep
  rw [processInline_no_delims ?hdelim]
  case hdelim =>
    intro c hc
    rcases List.mem_append.mp hc with hc | hc
    · have he := List.eq_of_mem_replicate hc
      subst he
      refine ⟨by decide, by decide, by decide, by decide⟩
    · have hcs := hws c hc
      exact ⟨ne_of_pred hcs backtick (by decide), ne_of_pred hcs '~' (by decide),
        ne_of_pred hcs '*' (by decide), ne_of_pred hcs '[' (by decide)⟩
  simp [emptyW]

/-- Every recorded format carries one of the six pass type tags. -/
theorem processInline_types (line : List Char) :
    ∀ f ∈ (process_inline_formatting line).formats,
      f.type = "inline_code" ∨ f.type = "strikethrough" ∨ f.type = "bold_italic" ∨
      f.type = "bold" ∨ f.type = "italic" ∨ f.type = "link" := by
  intro f hf
  simp only [process_inline_formatting] at hf
  rcases runPass_formats_mem _ _ _ _ _ _ _ f hf with hf | h
  · rcases runPass_formats_mem _ _ _ _ _ _ _ f hf with hf | h
    · rcases runPass_formats_mem _ _ _ _ _ _ _ f hf with hf | h
      · rcases runPass_formats_mem _ _ _ _ _ _ _ f hf with hf | h
        · rcases runPass_formats_mem _ _ _ _ _ _ _ f hf with hf | h
          · rcases runPass_formats_mem _ _ _ _ _ _ _ f hf with hf | h
            · simp at hf
            · simp [h]
          · simp [h]
        · simp [h]
      · simp [h]
    · simp [h]
  · simp [h]

/-- The tags a paragraph step adds all carry inline format type names. -/
theorem paraStep_tag_types (line : List Char) (w : Widget) (e : TagE)
    (he : e ∈ (paraStep line w).tags) :
    e ∈ w.tags ∨ ∃ fm ∈ (process_inline_formatting line).formats, e.tag = fm.type := by
  have hT : (paraStep line w).tags = w.tags ++ (process_inline_formatting line).formats.map
      (fun f => ⟨f.type, (w.out.length : Int) + f.start, (w.out.length : Int) + f.stop⟩) := rfl
  rw [hT] at he
  rcases List.mem_append.mp he with h | h
  · exact Or.inl h
  · rcases List.mem_map.mp h with ⟨fm, hfm, hfe⟩
    refine Or.inr ⟨fm, hfm, ?_⟩
    rw [← hfe]

/-- C4 amended: (1) a line starting *directly* with 1–4 `#` followed by a
    non-`#`, whose `line.strip('#').strip()` is nonempty, renders as a
    single-line heading at that level whose text is the line with both-end
    `#` runs and whitespace stripped; (2) a line with 5 or more leading `#`
    renders through the paragraph branch (inline formatter applied) and
    never carries an `h1`–`h4` tag. -/
theorem C4_heading_rule_amended :
    (∀ (k : Nat) (rest : List Char), 1 ≤ k → k ≤ 4 →
      (∀ c ∈ rest.take 1, c ≠ '#') →
      titleText (List.replicate k '#' ++ rest) ≠ [] →
      render_markdown_lines [List.replicate k '#' ++ rest] emptyW =
        ⟨titleText (List.replicate k '#' ++ rest) ++ ['\n'],
         [⟨"h" ++ toString k, 0,
           (((titleText (List.replicate k '#' ++ rest)).length + 1 : Nat) : Int)⟩]⟩) ∧
    (∀ (k : Nat) (rest : List Char), 5 ≤ k → (∀ c ∈ rest.take 1, c ≠ '#') →
      render_markdown_lines [List.replicate k '#' ++ rest] emptyW =
        paraStep (List.replicate k '#' ++ rest) emptyW ∧
      ∀ e ∈ (paraStep (List.replicate k '#' ++ rest) emptyW).tags,
        e.tag ≠ "h1" ∧ e.tag ≠ "h2" ∧ e.tag ≠ "h3" ∧ e.tag ≠ "h4") := by
  constructor
  · intro k rest hk1 hk4 hr ht
    obtain ⟨hf, hq, hu, ho, hh, hs⟩ := hashline_conds hk1 rest
    have hc := hashCount_replicate (k := k) hr
    have hhead : headCond (List.replicate k '#' ++ rest) = true := by
      unfold headCond
      rw [hs, hc]
      simp [hk4, ht]
    rw [render_lines_cons_head hf hhead, render_lines_nil]
    unfold headStep insTagged wTag wIns emptyW
    rw [hc]
    simp
  · intro k rest hk5 hr
    obtain ⟨hf, hq, hu, ho, hh, hs⟩ := hashline_conds (k := k) (by omega) rest
    have hc := hashCount_replicate (k := k) hr
    have hhead : headCond (List.replicate k '#' ++ rest) = false := by
      unfold headCond
      rw [hc, decide_eq_false (by omega : ¬ k ≤ 4)]
      simp
    constructor
    · rw [render_lines_cons_para hf hhead hq (by simp [hu, ho]) hh, render_lines_nil]
    · intro e he
      rcases paraStep_tag_types _ _ _ he with h0 | ⟨fm, hfm, hfe⟩
      · rw [show emptyW.tags = [] from rfl] at h0
        exact absurd h0 (List.not_mem_nil e)
      · have hty := processInline_types _ fm hfm
        rcases hty with h | h | h | h | h | h <;>
          · rw [hfe, h]
            exact ⟨by decide, by decide, by decide, by decide⟩

/-- Witness for `C4_heading_rule_amended`: `# Title` renders as an `h1`
    heading `Title`, and `##### Too Deep` renders through the paragraph
    branch. -/
theorem C4_heading_rule_amended_witness :
    render_markdown_lines [List.replicate 1 '#' ++ " Title".data] emptyW =
      ⟨titleText (List.replicate 1 '#' ++ " Title".data) ++ ['\n'],
       [⟨"h" ++ toString 1, 0,
         (((titleText (List.replicate 1 '#' ++ " Title".data)).length + 1 : Nat) : Int)⟩]⟩ ∧
    render_markdown_lines [List.replicate 5 '#' ++ " Too Deep".data] emptyW =
      paraStep (List.replicate 5 '#' ++ " Too Deep".data) emptyW :=
  ⟨C4_heading_rule_amended.1 1 " Title".data (by decide) (by decide) (by decide) (by decide),
   (C4_heading_rule_amended.2 5 " Too Deep".data (by decide) (by decide)).1⟩

/-- Branch conditions and `cleanLine` value for an unordered list line
    `ws ++ m :: s :: sp ++ rest` (marker `m`, whitespace run `s :: sp`,
    remainder `rest` starting with a non-space). -/
theorem unordered_line_facts (ws : List Char) (m s : Char) (sp rest : List Char)
    (hws : ∀ c ∈ ws, isPySpace c = true)
    (hm : m = '-' ∨ m = '*' ∨ m = '+')
    (hs : isPySpace s = true)
    (hsp : ∀ c ∈ sp, isPySpace c = true)
    (hr : ∀ c ∈ rest.take 1, isPySpace c = false) :
    fenceCond (ws ++ m :: s :: (sp ++ rest)) = false ∧
    headCond (ws ++ m :: s :: (sp ++ rest)) = false ∧
    quoteCond (ws ++ m :: s :: (sp ++ rest)) = false ∧
    isUnordered (ws ++ m :: s :: (sp ++ rest)) = true ∧
    cleanLine (ws ++ m :: s :: (sp ++ rest)) = ws ++ '•' :: ' ' :: rest := by
  have hmns : isPySpace m = false := by
    rcases hm with h | h | h <;> (subst h; decide)
  have hdw : (ws ++ m :: s :: (sp ++ rest)).dropWhile isPySpace = m :: s :: (sp ++ rest) := by
    rw [dropWhile_append_all hws, dropWhile_cons_false hmns]
  have hrdw : rest.dropWhile isPySpace = rest := by
    cases rest with
    | nil => rfl
    | cons c cs => exact dropWhile_cons_false (hr c (by simp)) cs
  have hps : pyStrip (ws ++ m :: s :: (sp ++ rest)) =
      m :: trimRight (s :: (sp ++ rest)) := by
    unfold pyStrip trimLeft
    rw [dropWhile_append_all hws, dropWhile_cons_false hmns,
      trimRight_cons_not_space hmns]
  have hu : isUnordered (ws ++ m :: s :: (sp ++ rest)) = true := by
    rw [isUnordered, hdw]
    rcases hm with h | h | h <;> (subst h; simp [hs])
  have htw : (ws ++ m :: s :: (sp ++ rest)).takeWhile isPySpace = ws := by
    rw [takeWhile_append_all hws, takeWhile_cons_false hmns, List.append_nil]
  have hno : isOrdered (ws ++ '•' :: ' ' :: rest) = false := by
    rw [isOrdered, dropWhile_append_all hws,
      dropWhile_cons_false (by decide : isPySpace '•' = false),
      takeWhile_cons_false (by decide : Char.isDigit '•' = false)]
    simp
  have hcl : cleanLine (ws ++ m :: s :: (sp ++ rest)) = ws ++ '•' :: ' ' :: rest := by
    simp only [cleanLine, hu, if_true, hdw, htw, List.dropWhile_cons, hs,
      dropWhile_append_all hsp rest, hrdw, hno, if_true, Bool.false_eq_true, if_false]
  refine ⟨?_, ?_, ?_, hu, hcl⟩
  · rw [fenceCond, hps]
    refine startsWithL_cons_ne ?_
    rcases hm with h | h | h <;> (subst h; decide)
  · unfold headCond
    rw [hps]
    have hsw : startsWithL ['#'] (m :: trimRight (s :: (sp ++ rest))) = false := by
      refine startsWithL_cons_ne ?_
      rcases hm with h | h | h <;> (subst h; decide)
    rw [hsw]
    rfl
  · rw [quoteCond, hps]
    refine startsWithL_cons_ne ?_
    rcases hm with h | h | h <;> (subst h; decide)

/-- Branch conditions and `cleanLine` value for an ordered list line
    `ws ++ (d :: ds) ++ '.' :: s :: sp ++ rest`: note the duplicated
    leading whitespace in the cleaned line. -/
theorem ordered_line_facts (ws : List Char) (d : Char) (ds : List Char) (s : Char)
    (sp rest : List Char)
    (hws : ∀ c ∈ ws, isPySpace c = true)
    (hd : d.isDigit = true)
    (hds : ∀ c ∈ ds, c.isDigit = true)
    (hs : isPySpace s = true)
    (hsp : ∀ c ∈ sp, isPySpace c = true)
    (hr : ∀ c ∈ rest.take 1, isPySpace c = false) :
    fenceCond (ws ++ (d :: ds) ++ '.' :: s :: (sp ++ rest)) = false ∧
    headCond (ws ++ (d :: ds) ++ '.' :: s :: (sp ++ rest)) = false ∧
    quoteCond (ws ++ (d :: ds) ++ '.' :: s :: (sp ++ rest)) = false ∧
    isUnordered (ws ++ (d :: ds) ++ '.' :: s :: (sp ++ rest)) = false ∧
    isOrdered (ws ++ (d :: ds) ++ '.' :: s :: (sp ++ rest)) = true ∧
    cleanLine (ws ++ (d :: ds) ++ '.' :: s :: (sp ++ rest)) =
      ws ++ ws ++ (d :: ds) ++ '.' :: s :: (sp ++ rest) := by
  have hdns : isPySpace d = false := isPySpace_eq_false_of_isDigit hd
  have hdig : ∀ c ∈ d :: ds, Char.isDigit c = true := by
    intro c hc
    rcases List.mem_cons.mp hc with h | h
    · subst h; exact hd
    · exact hds c h
  have hdw : (ws ++ (d :: ds) ++ '.' :: s :: (sp ++ rest)).dropWhile isPySpace =
      (d :: ds) ++ '.' :: s :: (sp ++ rest) := by
    rw [List.append_assoc, dropWhile_append_all hws, List.cons_append,
      dropWhile_cons_false hdns]
  have hps : pyStrip (ws ++ (d :: ds) ++ '.' :: s :: (sp ++ rest)) =
      d :: trimRight (ds ++ '.' :: s :: (sp ++ rest)) := by
    unfold pyStrip trimLeft
    rw [List.append_assoc, dropWhile_append_all hws, List.cons_append,
      dropWhile_cons_false hdns, trimRight_cons_not_space hdns]
  have hdm : (decide (d = '-') || decide (d = '*') || decide (d = '+')) = false := by
    rw [decide_eq_false (ne_of_pred hd '-' (by decide)),
      decide_eq_false (ne_of_pred hd '*' (by decide)),
      decide_eq_false (ne_of_pred hd '+' (by decide))]
    rfl
  have htw : (ws ++ (d :: ds) ++ '.' :: s :: (sp ++ rest)).takeWhile isPySpace = ws := by
    rw [List.append_assoc, takeWhile_append_all hws, List.cons_append,
      takeWhile_cons_false hdns, List.append_nil]
  have htdig : ((d :: ds) ++ '.' :: s :: (sp ++ rest)).takeWhile Char.isDigit = d :: ds := by
    rw [takeWhile_append_all hdig, takeWhile_cons_false (by decide : Char.isDigit '.' = false),
      List.append_nil]
  have hord : isOrdered (ws ++ (d :: ds) ++ '.' :: s :: (sp ++ rest)) = true := by
    rw [isOrdered, hdw, htdig]
    rw [List.drop_left]
    simp [hs]
  have hnu : isUnordered (ws ++ (d :: ds) ++ '.' :: s :: (sp ++ rest)) = false := by
    rw [isUnordered, hdw]
    cases ds with
    | nil => simp [hdm]
    | cons e es => simp [hdm]
  have hcl : cleanLine (ws ++ (d :: ds) ++ '.' :: s :: (sp ++ rest)) =
      ws ++ ws ++ (d :: ds) ++ '.' :: s :: (sp ++ rest) := by
    have hassoc : (d :: ds) ++ '.' :: s :: (sp ++ rest) =
        ((d :: ds) ++ ['.']) ++ s :: (sp ++ rest) := by simp
    have hlen : ((d :: ds) ++ ['.']).length = (d :: ds).length + 1 := by simp
    have hdrop : ((d :: ds) ++ '.' :: s :: (sp ++ rest)).drop ((d :: ds).length + 1) =
        s :: (sp ++ rest) := by
      rw [hassoc, List.drop_left' hlen]
    simp only [cleanLine, hnu, Bool.false_eq_true, if_false, hord, if_true,
      htw, hdw, htdig, hdrop]
  exact ⟨by
      rw [fenceCond, hps]
      exact startsWithL_cons_ne (beq_eq_false_iff_ne.mpr
        (fun he => (ne_of_pred hd backtick (by decide)) he.symm)),
    by
      unfold headCond
      rw [hps]
      have hsw : startsWithL ['#'] (d :: trimRight (ds ++ '.' :: s :: (sp ++ rest))) = false :=
        startsWithL_cons_ne (beq_eq_false_iff_ne.mpr
          (fun he => (ne_of_pred hd '#' (by decide)) he.symm))
      rw [hsw]
      rfl,
    by
      rw [quoteCond, hps]
      exact startsWithL_cons_ne (beq_eq_false_iff_ne.mpr
        (fun he => (ne_of_pred hd '>' (by decide)) he.symm)),
    hnu, hord, hcl⟩

/-- C5 amended: every line matched by the two list regexes becomes a
    single-line ListItem.  Unordered markers and their following whitespace
    run are normalized to `• ` with the leading indentation kept; ordered
    markers are preserved verbatim including the number, but the leading
    indentation is *duplicated* (`\1\g<0>` prepends a second copy of the
    captured whitespace), so the rendered line equals the original exactly
    when the ordered item has no leading whitespace. -/
theorem C5_list_item_amended :
    (∀ (ws : List Char) (m s : Char) (sp rest : List Char),
      (∀ c ∈ ws, isPySpace c = true) →
      (m = '-' ∨ m = '*' ∨ m = '+') →
      isPySpace s = true →
      (∀ c ∈ sp, isPySpace c = true) →
      (∀ c ∈ rest.take 1, isPySpace c = false) →
      render_markdown_lines [ws ++ m :: s :: (sp ++ rest)] emptyW =
        ⟨(ws ++ '•' :: ' ' :: rest) ++ ['\n'],
         [⟨"list_item", 0, (((ws ++ '•' :: ' ' :: rest).length + 1 : Nat) : Int)⟩]⟩) ∧
    (∀ (ws : List Char) (d : Char) (ds : List Char) (s : Char) (sp rest : List Char),
      (∀ c ∈ ws, isPySpace c = true) →
      d.isDigit = true →
      (∀ c ∈ ds, c.isDigit = true) →
      isPySpace s = true →
      (∀ c ∈ sp, isPySpace c = true) →
      (∀ c ∈ rest.take 1, isPySpace c = false) →
      render_markdown_lines [ws ++ (d :: ds) ++ '.' :: s :: (sp ++ rest)] emptyW =
        ⟨(ws ++ ws ++ (d :: ds) ++ '.' :: s :: (sp ++ rest)) ++ ['\n'],
         [⟨"list_item", 0,
           (((ws ++ ws ++ (d :: ds) ++ '.' :: s :: (sp ++ rest)).length + 1 : Nat) : Int)⟩]⟩) := by
  constructor
  · intro ws m s sp rest hws hm hs hsp hr
    obtain ⟨hf, hh, hq, hu, hcl⟩ := unordered_line_facts ws m s sp rest hws hm hs hsp hr
    rw [render_lines_cons_list hf hh hq (by rw [hu]; rfl), render_lines_nil]
    unfold listStep insTagged wTag wIns emptyW
    rw [hcl]
    simp
    omega
  · intro ws d ds s sp rest hws hd hds hs hsp hr
    obtain ⟨hf, hh, hq, hnu, hord, hcl⟩ :=
      ordered_line_facts ws d ds s sp rest hws hd hds hs hsp hr
    rw [render_lines_cons_list hf hh hq (by rw [hord]; simp), render_lines_nil]
    unfold listStep insTagged wTag wIns emptyW
    rw [hcl]
    simp
    omega

/-- Witness for `C5_list_item_amended`: `  - y` renders as `  • y`, and
    ` 1. a` renders as `  1. a` (indentation duplicated). -/
theorem C5_list_item_amended_witness :
    render_markdown_lines ["  ".data ++ '-' :: ' ' :: ([] ++ "y".data)] emptyW =
      ⟨("  ".data ++ '•' :: ' ' :: "y".data) ++ ['\n'],
       [⟨"list_item", 0, ((("  ".data ++ '•' :: ' ' :: "y".data).length + 1 : Nat) : Int)⟩]⟩ ∧
    render_markdown_lines [" ".data ++ ('1' :: []) ++ '.' :: ' ' :: ([] ++ "a".data)] emptyW =
      ⟨(" ".data ++ " ".data ++ ('1' :: []) ++ '.' :: ' ' :: ([] ++ "a".data)) ++ ['\n'],
       [⟨"list_item", 0,
         (((" ".data ++ " ".data ++ ('1' :: []) ++ '.' :: ' ' :: ([] ++ "a".data)).length + 1 :
           Nat) : Int)⟩]⟩ :=
  ⟨C5_list_item_amended.1 "  ".data '-' ' ' [] "y".data (by decide) (by decide) (by decide)
      (by decide) (by decide),
   C5_list_item_amended.2 " ".data '1' [] ' ' [] "a".data (by decide) (by decide) (by decide)
      (by decide) (by decide) (by decide)⟩

theorem takeWhile_all_true {p : α → Bool} :
    ∀ {xs : List α}, (∀ a ∈ xs, p a = true) → xs.takeWhile p = xs
  | [], _ => rfl
  | x :: xs, h => by
    rw [List.takeWhile_cons, if_pos (h x (List.mem_cons_self _ _)),
      takeWhile_all_true (fun a ha => h a (List.mem_cons_of_mem _ ha))]

theorem quoteCond_eq_false_of_fence {f : List Char} (h : fenceCond f = true) :
    quoteCond f = false := by
  unfold fenceCond at h
  unfold quoteCond
  cases hps : pyStrip f with
  | nil =>
    rw [hps] at h
    simp [startsWithL, List.isPrefixOf] at h
  | cons c cs =>
    rw [hps] at h
    simp only [startsWithL, List.isPrefixOf, Bool.and_eq_true, beq_iff_eq] at h
    obtain ⟨hc, _⟩ := h
    subst hc
    exact startsWithL_cons_ne (by decide)

/-- One fence block: an opening fence line consumes the fence-free body up
    to the next fence line (or end of buffer), inserts exactly the body
    joined verbatim as one `code_block`-tagged region, omits the fence
    delimiter lines, and resumes after the closing fence. -/
theorem render_fence_base {f : List Char} (hf : fenceCond f = true)
    {body rest : List (List Char)} (hbody : ∀ l ∈ body, fenceCond l = false)
    (hrest : rest = [] ∨ ∃ r rs, rest = r :: rs ∧ fenceCond r = true) (w : Widget) :
    render_markdown_lines (f :: (body ++ rest)) w =
      render_markdown_lines rest.tail (fenceStep body w) := by
  rw [render_lines_cons_fence hf]
  have htb : ∀ l ∈ body, (fun x => !fenceCond x) l = true := by
    intro l hl
    simp [hbody l hl]
  rcases hrest with rfl | ⟨r, rs, rfl, hr⟩
  · rw [List.append_nil, takeWhile_all_true htb, dropWhile_all_true htb]
    rfl
  · rw [takeWhile_append_mid (by simp [hr]) body rs,
      dropWhile_append_mid (by simp [hr]) body rs,
      takeWhile_all_true htb, dropWhile_all_true htb]
    rfl

theorem render_fence_aux :
    ∀ (n : Nat) (pre : List (List Char)), pre.length ≤ n →
      ∀ (f : List Char) (body rest : List (List Char)) (w : Widget),
      (∀ l ∈ pre, fenceCond l = false) →
      fenceCond f = true →
      (∀ l ∈ body, fenceCond l = false) →
      (rest = [] ∨ ∃ r rs, rest = r :: rs ∧ fenceCond r = true) →
      render_markdown_lines (pre ++ f :: (body ++ rest)) w =
        render_markdown_lines rest.tail (fenceStep body (render_markdown_lines pre w)) := by
  intro n
  induction n with
  | zero =>
    intro pre hlen f body rest w hpre hf hbody hrest
    have hnil : pre = [] := List.eq_nil_of_length_eq_zero (Nat.le_zero.mp hlen)
    subst hnil
    rw [List.nil_append, render_lines_nil]
    exact render_fence_base hf hbody hrest w
  | succ k ih =>
    intro pre hlen f body rest w hpre hf hbody hrest
    match pre with
    | [] =>
      rw [List.nil_append, render_lines_nil]
      exact render_fence_base hf hbody hrest w
    | l :: pre' =>
      have hlf : fenceCond l = false := hpre l (List.mem_cons_self _ _)
      have hpre' : ∀ x ∈ pre', fenceCond x = false :=
        fun x hx => hpre x (List.mem_cons_of_mem _ hx)
      simp only [List.length_cons] at hlen
      rw [List.cons_append]
      by_cases hhl : headCond l = true
      · rw [render_lines_cons_head hlf hhl, render_lines_cons_head hlf hhl]
        exact ih pre' (by omega) f body rest (headStep l w) hpre' hf hbody hrest
      · have hhl' : headCond l = false := by simpa using hhl
        by_cases hql : quoteCond l = true
        · have hqf : quoteCond f = false := quoteCond_eq_false_of_fence hf
          rw [render_lines_cons_quote hlf hhl' hql,
            render_lines_cons_quote hlf hhl' hql,
            takeWhile_append_mid hqf pre' (body ++ rest),
            dropWhile_append_mid hqf pre' (body ++ rest)]
          refine ih (pre'.dropWhile quoteCond) ?_ f body rest
            (quoteStep (l :: pre'.takeWhile quoteCond) w) ?_ hf hbody hrest
          · have := length_dropWhile_le' quoteCond pre'
            omega
          · intro x hx
            exact hpre' x ((List.dropWhile_sublist quoteCond).subset hx)
        · have hql' : quoteCond l = false := by simpa using hql
          by_cases hul : (isUnordered l || isOrdered l) = true
          · rw [render_lines_cons_list hlf hhl' hql' hul,
              render_lines_cons_list hlf hhl' hql' hul]
            exact ih pre' (by omega) f body rest (listStep l w) hpre' hf hbody hrest
          · have hul' : (isUnordered l || isOrdered l) = false := by simpa using hul
            by_cases hhrl : isHR l = true
            · rw [render_lines_cons_hr hlf hhl' hql' hul' hhrl,
                render_lines_cons_hr hlf hhl' hql' hul' hhrl]
              exact ih pre' (by omega) f body rest (hrStep w) hpre' hf hbody hrest
            · have hhrl' : isHR l = false := by simpa using hhrl
              rw [render_lines_cons_para hlf hhl' hql' hul' hhrl',
                render_lines_cons_para hlf hhl' hql' hul' hhrl']
              exact ih pre' (by omega) f body rest (paraStep l w) hpre' hf hbody hrest

/-- C6: for every buffer made of a fence-free prefix, an opening fence
    line, a fence-free body and the remainder (either empty — unterminated
    fence, consumed to end with no error — or starting with the closing
    fence), rendering equals: render the prefix, insert the body lines
    joined verbatim with newlines as a single `code_block`-tagged region
    (nothing at all for an empty body), skip the fence delimiter lines, and
    continue after the closing fence.  In particular body lines produce
    zero inline spans and zero heading tags, as the concrete spec example
    shows: `**not bold**` and `# not a heading` render as plain code
    text. -/
theorem C6_code_fence_verbatim :
    (∀ (pre : List (List Char)) (f : List Char) (body rest : List (List Char)) (w : Widget),
      (∀ l ∈ pre, fenceCond l = false) →
      fenceCond f = true →
      (∀ l ∈ body, fenceCond l = false) →
      (rest = [] ∨ ∃ r rs, rest = r :: rs ∧ fenceCond r = true) →
      render_markdown_lines (pre ++ f :: (body ++ rest)) w =
        render_markdown_lines rest.tail (fenceStep body (render_markdown_lines pre w))) ∧
    render_as_markdown "```\n**not bold**\n# not a heading\n```".data =
      ⟨"**not bold**\n# not a heading\n".data, [⟨"code_block", 0, 29⟩]⟩ := by
  constructor
  · intro pre f body rest w hpre hf hbody hrest
    exact render_fence_aux pre.length pre (le_refl _) f body rest w hpre hf hbody hrest
  · decide

/-- Witness for `C6_code_fence_verbatim`: a paragraph line, an open fence,
    one body line and a closing fence. -/
theorem C6_code_fence_verbatim_witness :
    render_markdown_lines (["a".data] ++ "```".data :: (["x".data] ++ ["```".data])) emptyW =
      render_markdown_lines (["```".data] : List (List Char)).tail
        (fenceStep ["x".data] (render_markdown_lines ["a".data] emptyW)) :=
  C6_code_fence_verbatim.1 ["a".data] "```".data ["x".data] ["```".data] emptyW
    (by decide) (by decide) (by decide)
    (Or.inr ⟨"```".data, [], rfl, by decide⟩)

/-- C8: the whole pipeline is a total function of the buffer text (every
    definition here is a total Lean function), and malformed input degrades
    silently: an unterminated fence consumes the rest of the buffer as code
    with no error, a lone `*` stays literal with no span produced, and a
    5-hash heading line falls through to a plain paragraph. -/
theorem C8_total_silent_degradation :
    (∀ (body : List (List Char)) (w : Widget), (∀ l ∈ body, fenceCond l = false) →
      render_markdown_lines ("```".data :: body) w = fenceStep body w) ∧
    process_inline_formatting "a * b".data = ⟨"a * b".data, [], 0⟩ ∧
    render_markdown_lines ["##### Too Deep".data] emptyW =
      ⟨"##### Too Deep\n".data, []⟩ := by
  refine ⟨?_, by decide, by decide⟩
  intro body w hbody
  have hb := render_fence_base (f := "```".data) (by decide) hbody (Or.inl rfl) w
  rw [List.append_nil] at hb
  rw [hb]
  rfl

/-- Witness for `C8_total_silent_degradation`: an unterminated fence over
    one body line. -/
theorem C8_total_silent_degradation_witness :
    render_markdown_lines ("```".data :: ["x".data]) emptyW = fenceStep ["x".data] emptyW :=
  C8_total_silent_degradation.1 ["x".data] emptyW (by decide)

/-- Witness for `C10_empty_heading_amended`: the line `## ` (hashes first,
    then only whitespace) renders as the literal paragraph `## `. -/
theorem C10_empty_heading_amended_witness :
    render_markdown_lines [List.replicate 2 '#' ++ " ".data] emptyW =
      ⟨(List.replicate 2 '#' ++ " ".data) ++ ['\n'], []⟩ :=
  C10_empty_heading_amended 2 " ".data (by decide) (by decide) (by decide)
